import Mathlib

/-!
Verification of the FibbingNode controller core against its specification.

The development shallowly embeds the parts of the code base that the checked
claims are about:

* `fibbingnode/southbound/lsdb/lsdb.py` — LSA store, sequence-number checks,
  line ingestion, and the LSA-application phase of `build_graph`;
* `fibbingnode/southbound/lsdb/lsa.py` — the LSA variants and their `apply`
  contributions to the IGP graph;
* `fibbingnode/misc/igp_graph.py` — the IGP graph operations (`add_route`
  family, `contract`);
* `fibbingnode/algorithms/utils.py` — `add_dest_to_graph` and
  `__update_default_paths`;
* `fibbingnode/algorithms/merger.py` — solver node state, `create_fake_lsa`,
  `propagate_lb` and `apply_merge` with its undo log;
* `fibbingnode/algorithms/southbound_interface.py` — the `SouthboundListener`
  dirty-flag protocol.

Router identifiers, interface addresses and IP prefixes are abstracted to
natural numbers; Python `int` values (metrics, bounds, sequence numbers) are
embedded as `Int`.  Python dictionaries are embedded either as association
lists in insertion order or as total functions updated with
`Function.update`, as noted at each definition.
-/

namespace Fibbing

/-- Python `sys.maxint` on a 64-bit build, used as the initial accumulator of
minimum computations in the source. -/
def pyMaxInt : Int := 9223372036854775807

/-! ### LSDB line ingestion (`lsdb.py`, `LSDB.__init__` / `LSDB.commit_change`)

`LSDB.__init__` sets `self.last_line = ''` and no other statement in the
class ever assigns `last_line`, so the state below carries it unchanged
through every call. -/

structure IngestState where
  lastLine : String
  queue : List String
deriving DecidableEq

/-- Initial ingestion state set up by `LSDB.__init__`. -/
def initIngest : IngestState := { lastLine := "", queue := [] }

/-- Embeds `LSDB.commit_change` (lsdb.py lines 91-95): a line equal to
`last_line` or empty returns without queueing, anything else is enqueued.
No assignment to `last_line` occurs anywhere in the class. -/
def commitChange (st : IngestState) (line : String) : IngestState :=
  if st.lastLine = line ∨ line = "" then st
  else { st with queue := st.queue ++ [line] }

/-! ### Southbound listener dirty flag
(`southbound_interface.py`, `SouthboundListener`) -/

structure ListenerState where
  edges : Finset (Nat × Nat)
  dirty : Bool
  notifications : Nat
deriving DecidableEq

/-- Embeds `SouthboundListener.add_edge`: insert the edge, then set
`self.dirty = self.igp_graph.has_edge(destination, source)` — an
unconditional overwrite of the flag. -/
def listenerAddEdge (st : ListenerState) (u v : Nat) : ListenerState :=
  let es := insert (u, v) st.edges
  { edges := es, dirty := decide ((v, u) ∈ es),
    notifications := st.notifications }

/-- Embeds `SouthboundListener.commit`: call `graph_changed` (counted here as
a notification) only when the dirty flag is set, and clear it. -/
def listenerCommit (st : ListenerState) : ListenerState :=
  if st.dirty then
    { st with dirty := false, notifications := st.notifications + 1 }
  else st

/-! ### LSA model (`lsa.py`) -/

/-- Links carried by a Router LSA (`Link` subclasses in lsa.py).  `StubLink`
stores the link id as its address and the link data as its mask. -/
inductive Link
  | p2p (otherRouterid : Nat) (address : Nat) (metric : Int)
  | transit (drIp : Nat) (address : Nat) (metric : Int)
  | stub (address : Nat) (mask : Nat) (metric : Int)
  | virtual
deriving DecidableEq

/-- The LSA variants of lsa.py.  An AS-external route is a pair
`(metric, forwarding address)` where `none` embeds the wildcard address
`0.0.0.0`.  `unusedLsa` stands for `UnusedLSA`, produced for unknown
`lsa_type` values; its `key()` is `None`. -/
inductive Lsa
  | router (routerid : Nat) (seqnum : Int) (age : Int) (links : List Link)
  | network (drIp : Nat) (seqnum : Int) (age : Int) (attached : List Nat)
  | asext (routerid : Nat) (pfx : Nat) (seqnum : Int) (age : Int)
      (routes : List (Int × Option Nat))
  | unusedLsa (seqnum : Int) (age : Int)
deriving DecidableEq

def Lsa.seqnum : Lsa → Int
  | .router _ s _ _ => s
  | .network _ s _ _ => s
  | .asext _ _ s _ _ => s
  | .unusedLsa s _ => s

def Lsa.age : Lsa → Int
  | .router _ _ a _ => a
  | .network _ _ a _ => a
  | .asext _ _ _ a _ => a
  | .unusedLsa _ a => a

/-- Keys identifying an LSA inside its per-type store, following
`RouterLSA.key`, `NetworkLSA.key` and `ASExtLSA.key`. -/
inductive LKey
  | routerK (routerid : Nat)
  | networkK (drIp : Nat)
  | extK (routerid : Nat) (pfx : Nat)
deriving DecidableEq

/-- `key()` of each LSA variant; `UnusedLSA.key` returns `None`. -/
def Lsa.key : Lsa → Option LKey
  | .router rid _ _ _ => some (.routerK rid)
  | .network dr _ _ _ => some (.networkK dr)
  | .asext rid p _ _ _ => some (.extK rid p)
  | .unusedLsa _ _ => none

/-- `is_newer_seqnum` (lsa.py lines 283-289): plain comparison of the parsed
(signed) integers. -/
def isNewerSeqnum (a b : Int) : Bool := a > b

/-- Reference constant `MAX_LS_AGE` (lsa.py line 29). -/
def maxLsAge : Int := 3600

/-- `is_expired_lsa` (lsa.py lines 292-294). -/
def isExpiredLsa (l : Lsa) : Bool := l.age ≥ maxLsAge

/-! ### LSA store (`lsdb.py`, `LSDB._lsdb`)

The Python store is a dict from LSA type to a dict keyed by `lsa.key()`.
It is embedded as three association lists in insertion order, with
update-in-place on an existing key (dict assignment semantics). -/

/-- Dict assignment `d[k] = v`: replace in place if the key is present,
append otherwise. -/
def assocPut {α β : Type} [DecidableEq α] :
    List (α × β) → α → β → List (α × β)
  | [], k, v => [(k, v)]
  | (k', v') :: t, k, v =>
    if k' = k then (k', v) :: t else (k', v') :: assocPut t k v

/-- Dict deletion `del d[k]` (no error tracking: the caller catches
`KeyError`). -/
def assocDel {α β : Type} [DecidableEq α] :
    List (α × β) → α → List (α × β)
  | [], _ => []
  | (k', v') :: t, k => if k' = k then t else (k', v') :: assocDel t k

def assocFind {α β : Type} [DecidableEq α] :
    List (α × β) → α → Option β
  | [], _ => none
  | (k', v') :: t, k => if k' = k then some v' else assocFind t k

structure Store where
  routers : List (Nat × Lsa)
  networks : List (Nat × Lsa)
  exts : List ((Nat × Nat) × Lsa)
deriving DecidableEq

def emptyStore : Store := ⟨[], [], []⟩

/-- Look an LSA up by its key, dispatching to the per-type dict as
`LSDB.lsdb` does. -/
def Store.findKey (st : Store) : LKey → Option Lsa
  | .routerK r => assocFind st.routers r
  | .networkK d => assocFind st.networks d
  | .extK r p => assocFind st.exts (r, p)

/-- `LSDB.add_lsa`: store under `lsa.key()`; a `None` store (unknown type)
makes it a no-op (`TypeError` caught). -/
def Store.addLsa (st : Store) (l : Lsa) : Store :=
  match l with
  | .router rid _ _ _ => { st with routers := assocPut st.routers rid l }
  | .network dr _ _ _ => { st with networks := assocPut st.networks dr l }
  | .asext rid p _ _ _ => { st with exts := assocPut st.exts (rid, p) l }
  | .unusedLsa _ _ => st

/-- `LSDB.remove_lsa`: delete by `lsa.key()`; missing keys and unknown types
are silently ignored (`KeyError`/`TypeError` caught). -/
def Store.removeLsa (st : Store) (l : Lsa) : Store :=
  match l with
  | .router rid _ _ _ => { st with routers := assocDel st.routers rid }
  | .network dr _ _ _ => { st with networks := assocDel st.networks dr }
  | .asext rid p _ _ _ => { st with exts := assocDel st.exts (rid, p) }
  | .unusedLsa _ _ => st

/-- `LSDB.get_current_seq_number`: seqnum of the stored LSA with the same
key, if any. -/
def Store.currentSeqnum (st : Store) (l : Lsa) : Option Int :=
  match l.key with
  | none => none
  | some k => (st.findKey k).map Lsa.seqnum

/-- `LSDB.is_old_seqnum` (lsdb.py lines 149-156).  The Python expression is
`c_seqnum and not is_newer_seqnum(new, c) and new != c`; `c_seqnum` is used
for its truthiness, so a stored seqnum of `0` (like an absent LSA) makes the
whole conjunction falsy. -/
def Store.isOldSeqnum (st : Store) (l : Lsa) : Bool :=
  match st.currentSeqnum l with
  | none => false
  | some c => (c != 0) && !(isNewerSeqnum l.seqnum c) && (l.seqnum != c)

/-- Parsed actions carried by an LSDB line (`BEGIN`, `COMMIT`, `ADD`, `REM`),
after `parse_lsa`. -/
inductive LsdbAction
  | beginT
  | commitT
  | add (l : Lsa)
  | rem (l : Lsa)
deriving DecidableEq

/-- Store component of `LSDB.handle_lsa_line`: `BEGIN`/`COMMIT` only toggle
the transaction flag; `ADD`/`REM` are dropped when `is_old_seqnum` holds and
otherwise update the store. -/
def applyAction (a : LsdbAction) (st : Store) : Store :=
  match a with
  | .beginT => st
  | .commitT => st
  | .add l => if st.isOldSeqnum l then st else st.addLsa l
  | .rem l => if st.isOldSeqnum l then st else st.removeLsa l

/-! ### IGP graph (`igp_graph.py`, `IGPGraph`)

Node and edge attribute dicts are embedded as records of `Option` fields
(`none` = key absent); `networkx` attribute updates become field-wise
overwrites of the present fields.  Nodes and edges are kept in insertion
order, with dict-style update-in-place, which determinizes the (unordered)
Python dict iteration. -/

structure NodeData where
  router : Option Bool := none
  pfxFlag : Option Bool := none
  controller : Option Bool := none
deriving DecidableEq

structure EdgeData where
  metric : Option Int := none
  srcAddress : Option Nat := none
  fakeFlag : Option Bool := none
  target : Option (List Nat) := none
deriving DecidableEq

def emptyEdgeData : EdgeData := {}

/-- Python `dict.update(new)` on an edge attribute dict: keys present in
`new` overwrite, others are kept. -/
def edUpdate (old new : EdgeData) : EdgeData :=
  { metric := match new.metric with | some m => some m | none => old.metric,
    srcAddress :=
      match new.srcAddress with | some a => some a | none => old.srcAddress,
    fakeFlag :=
      match new.fakeFlag with | some f => some f | none => old.fakeFlag,
    target := match new.target with | some t => some t | none => old.target }

/-- Python `dict.update(new)` on a node attribute dict. -/
def ndUpdate (old new : NodeData) : NodeData :=
  { router := match new.router with | some r => some r | none => old.router,
    pfxFlag :=
      match new.pfxFlag with | some p => some p | none => old.pfxFlag,
    controller :=
      match new.controller with
      | some c => some c | none => old.controller }

structure Graph where
  nodes : List (Nat × NodeData)
  edges : List ((Nat × Nat) × EdgeData)
deriving DecidableEq

def emptyGraph : Graph := ⟨[], []⟩

def Graph.hasNode (g : Graph) (n : Nat) : Bool :=
  (assocFind g.nodes n).isSome

def Graph.getEdge (g : Graph) (u v : Nat) : Option EdgeData :=
  assocFind g.edges (u, v)

def Graph.hasEdge (g : Graph) (u v : Nat) : Bool :=
  (g.getEdge u v).isSome

/-- `networkx` `add_node(n, **attr)`: create the node or update its
attribute dict. -/
def Graph.addNode (g : Graph) (n : Nat) (d : NodeData) : Graph :=
  match assocFind g.nodes n with
  | some old => { g with nodes := assocPut g.nodes n (ndUpdate old d) }
  | none => { g with nodes := g.nodes ++ [(n, d)] }

/-- `networkx` `add_edge(u, v, **attr)`: auto-create missing endpoint nodes
(with empty attribute dicts), then create the edge or update its attribute
dict. -/
def Graph.addEdge (g : Graph) (u v : Nat) (d : EdgeData) : Graph :=
  let g := g.addNode u {}
  let g := g.addNode v {}
  match g.getEdge u v with
  | some old => { g with edges := assocPut g.edges (u, v) (edUpdate old d) }
  | none => { g with edges := g.edges ++ [((u, v), d)] }

/-- `IGPGraph.add_router`: `add_node(n, router=True)`. -/
def Graph.addRouter (g : Graph) (n : Nat) : Graph :=
  g.addNode n { router := some true }

/-- `IGPGraph.add_route`: mark the prefix node and add the edge. -/
def Graph.addRoute (g : Graph) (router pfx : Nat) (d : EdgeData) : Graph :=
  (g.addNode pfx { pfxFlag := some true }).addEdge router pfx d

/-- `IGPGraph.add_fake_route`: `add_route(..., fake=True)`. -/
def Graph.addFakeRoute (g : Graph) (router pfx : Nat) (d : EdgeData) :
    Graph :=
  g.addRoute router pfx { d with fakeFlag := some true }

/-- Argument shape accepted by `add_local_route`: `is_container` wraps a
bare value into a singleton list. -/
inductive TargetsArg
  | one (rid : Nat)
  | many (rids : List Nat)
deriving DecidableEq

def TargetsArg.toList : TargetsArg → List Nat
  | .one r => [r]
  | .many rs => rs

/-- `IGPGraph.add_local_route` (igp_graph.py lines 87-91): wrap a bare
target, then `add_fake_route(..., target=targets)`. -/
def Graph.addLocalRoute (g : Graph) (router pfx : Nat) (targets : TargetsArg)
    (d : EdgeData) : Graph :=
  g.addFakeRoute router pfx { d with target := some targets.toList }

/-! ### LSA graph contributions (`lsa.py` `apply` methods and the LSA loop
of `LSDB.build_graph`, lsdb.py lines 219-231) -/

/-- Context of a rebuild: `BASE_NET` membership of a router id and the
private-address store's broadcast domains.  `_bdomains` is a
`defaultdict(list)`, so `targets_for` is total and yields `[]` for an
unknown address (its `raise ValueError` branch is unreachable); the
`except KeyError` fallback to `add_fake_route` in `ASExtLSA.apply` is
therefore dead code. -/
structure RebuildCtx where
  inBaseNet : Nat → Bool
  bdomains : Nat → List Nat

/-- `PrivateAddressStore.targets_for` (lsdb.py lines 357-362) on the
defaultdict `_bdomains`. -/
def targetsFor (ctx : RebuildCtx) (ip : Nat) : List Nat := ctx.bdomains ip

def Link.address : Link → Option Nat
  | .p2p _ a _ => some a
  | .transit _ a _ => some a
  | .stub a _ _ => some a
  | .virtual => none

def Link.metric : Link → Int
  | .p2p _ _ m => m
  | .transit _ _ m => m
  | .stub _ _ m => m
  | .virtual => 0

/-- `Link.endpoints`: a P2P link resolves to the neighbor router id, a
transit link to the attached routers of the Network LSA stored under its
DR-IP (with no expiry check), stub and virtual links to nothing. -/
def Link.endpoints (st : Store) : Link → List Nat
  | .p2p other _ _ => [other]
  | .transit dr _ _ =>
    match assocFind st.networks dr with
    | some (.network _ _ _ att) => att
    | _ => []
  | .stub _ _ _ => []
  | .virtual => []

/-- `ASExtLSA.resolve_fwd_addr`: the wildcard forwarding address resolves to
the originating router id. -/
def resolveFwdAddr (rid : Nat) : Option Nat → Nat
  | none => rid
  | some a => a

/-- `LSA.apply` for each variant: Router LSAs add the router and one edge per
resolved link endpoint; Network LSAs contribute nothing directly;
AS-external LSAs add a local route (controller-originated) or a real
route. -/
def Lsa.apply (ctx : RebuildCtx) (st : Store) (g : Graph) : Lsa → Graph
  | .router rid _ _ links =>
    links.foldl
      (fun g l =>
        (l.endpoints st).foldl
          (fun g ep =>
            g.addEdge rid ep
              { metric := some l.metric, srcAddress := l.address })
          g)
      (g.addRouter rid)
  | .network _ _ _ _ => g
  | .asext rid pfx _ _ routes =>
    routes.foldl
      (fun g r =>
        let fwd := resolveFwdAddr rid r.2
        if ctx.inBaseNet rid then
          g.addLocalRoute fwd pfx (.many (targetsFor ctx fwd))
            { metric := some r.1 }
        else g.addRoute fwd pfx { metric := some r.1 })
      g
  | .unusedLsa _ _ => g

/-- All LSAs of the store in the iteration order of `build_graph`
(`chain(routers, networks, ext_networks)`). -/
def Store.allLsas (st : Store) : List Lsa :=
  st.routers.map Prod.snd ++ st.networks.map Prod.snd ++
    st.exts.map Prod.snd

/-- LSA-application phase of `LSDB.build_graph` (lsdb.py lines 219-231):
iterate every stored LSA and apply it unless it is expired.  Endpoint
resolution (`lsa.apply(new_graph, self)`) consults the full store. -/
def lsaApplyPhase (ctx : RebuildCtx) (st : Store) : Graph :=
  st.allLsas.foldl
    (fun g l => if isExpiredLsa l then g else l.apply ctx st g) emptyGraph

/-- Same fold with the expiry check replaced by filtering the iterated list;
the store used for endpoint resolution is untouched. -/
def lsaApplyPhaseFiltered (ctx : RebuildCtx) (st : Store) : Graph :=
  (st.allLsas.filter (fun l => !isExpiredLsa l)).foldl
    (fun g l => l.apply ctx st g) emptyGraph

/-! ### Graph contraction (`IGPGraph.contract`, igp_graph.py lines 219-223) -/

/-- `networkx` `remove_nodes_from`: drop the nodes and every incident
edge. -/
def Graph.removeNodes (g : Graph) (nbunch : List Nat) : Graph :=
  { nodes := g.nodes.filter (fun p => decide (p.1 ∉ nbunch)),
    edges :=
      g.edges.filter
        (fun e => decide (e.1.1 ∉ nbunch ∧ e.1.2 ∉ nbunch)) }

/-- `edges_iter(nbunch, data=True)`: the out-edges of the nodes of `nbunch`,
in `nbunch` order then stored order. -/
def Graph.outEdgesOf (g : Graph) (nbunch : List Nat) :
    List ((Nat × Nat) × EdgeData) :=
  nbunch.flatMap (fun m => g.edges.filter (fun e => decide (e.1.1 = m)))

/-- `IGPGraph.contract`: re-add every out-edge of the group with `into` as
source (updating the data dict of an already-present edge), then delete the
group's nodes.  The generator feeding `add_edges_from` is embedded as a
precomputed list, which is faithful whenever `into` is not in the group. -/
def Graph.contract (g : Graph) (into : Nat) (nbunch : List Nat) : Graph :=
  let g1 :=
    (g.outEdgesOf nbunch).foldl (fun h e => h.addEdge into e.1.2 e.2) g
  g1.removeNodes nbunch

/-! ### Destination insertion (`utils.py`, `add_dest_to_graph`) -/

def Graph.outDeg (g : Graph) (n : Nat) : Nat :=
  (g.edges.filter (fun e => decide (e.1.1 = n))).length

/-- `find_sink` (utils.py lines 10-16): nodes of out-degree 0. -/
def findSink (g : Graph) : List Nat :=
  (g.nodes.map Prod.fst).filter (fun n => decide (g.outDeg n = 0))

/-- `IGPGraph.is_prefix` via `_is_x(n, 'prefix')`. -/
def Graph.isPfx (g : Graph) (n : Nat) : Bool :=
  match assocFind g.nodes n with
  | some d => d.pfxFlag == some true
  | none => false

/-- `IGPGraph._edge_is_x(u, v, 'fake')` (`KeyError` yields `False`). -/
def Graph.edgeFakeIs (g : Graph) (u v : Nat) : Bool :=
  match g.getEdge u v with
  | some d => d.fakeFlag == some true
  | none => false

/-- `IGPGraph.is_real_route`. -/
def Graph.isRealRoute (g : Graph) (u v : Nat) : Bool :=
  g.isPfx v && !(g.edgeFakeIs u v)

/-- Predecessor list of a node, in stored edge order. -/
def Graph.preds (g : Graph) (d : Nat) : List Nat :=
  (g.edges.filter (fun e => decide (e.1.2 = d))).map (fun e => e.1.1)

/-- `_is_fake_dest` (utils.py lines 155-163): `d` is reachable through fake
links only. -/
def isFakeDest (g : Graph) (d : Nat) : Bool :=
  (g.preds d).all (fun p => !(g.isRealRoute p d))

/-- Graph part of `add_dest_to_graph` (utils.py lines 166-212).  `edgesSrc`
embeds the result of the optional `edges_src` callback (the Merger passes
`self.dag.predecessors`); `withNodeData` records whether a `node_data_gen`
was supplied (its solver payload is not part of the graph model, but its
presence forces the `add_node` call).  Returns the new graph and the `added`
source list handed to the SPT update. -/
def addDestToGraph (dest : Nat) (g : Graph) (edgesSrc : Option (List Nat))
    (metricKw : Option Int) (withNodeData : Bool) : Graph × List Nat :=
  if g.hasNode dest ∧ ¬ isFakeDest g dest then
    (if withNodeData then g.addNode dest { pfxFlag := some true } else g, [])
  else
    let added :=
      match edgesSrc with
      | none => (findSink g).filter (fun n => decide (n ≠ dest))
      | some srcs => srcs
    let g1 :=
      added.foldl (fun h s => h.addFakeRoute s dest { metric := metricKw }) g
    let g2 :=
      match edgesSrc with
      | none => g1
      | some _ =>
        -- graph.add_edges_from((s, dest) for s in added, **kw)
        added.foldl (fun h s => h.addEdge s dest { metric := metricKw }) g1
    (g2.addNode dest { pfxFlag := some true }, added)

/-- Default metric for synthesized edges, `Merger.__init__` (merger.py line
71): `self.new_edge_metric = int(10e3)` = 10000. -/
def mergerNewEdgeMetric : Int := 10000

/-- Graph-side call of `Merger.check_dest` (merger.py lines 130-139):
`add_dest_to_graph(self.dest, self.g, edges_src=self.dag.predecessors,
metric=self.new_edge_metric, node_data_gen=self.__new_dest)`. -/
def checkDestGraph (dest : Nat) (g : Graph) (dagPreds : List Nat) :
    Graph × List Nat :=
  addDestToGraph dest g (some dagPreds) (some mergerNewEdgeMetric) true

/-! ### Shortest-path tables and incremental destination addition
(`utils.py`, `__update_default_paths`, lines 226-246)

`ShortestPath._default_dist` / `_default_paths` are dicts of dicts; they are
embedded as total functions into `Option` (missing key = `none`), updated
with `Function.update`. -/

structure SptTables where
  dist : Nat → Nat → Option Int
  pathsT : Nat → Nat → Option (List (List Nat))

/-- `extend_paths_list` (misc/utils.py lines 138-145): copy every path and
append `n`. -/
def extendPathsList (ps : List (List Nat)) (n : Nat) : List (List Nat) :=
  ps.map (fun p => p ++ [n])

/-- Inner loop of `__update_default_paths` over `added` for a fixed `n`:
accumulate the best candidate cost (starting from `sys.maxint`) and the
extended path list, skipping sources without a stored distance. -/
def candidateFold (spt : SptTables) (metric : Nat → Nat → Int)
    (dest n : Nat) : List Nat → List (List Nat) × Int →
      List (List Nat) × Int
  | [], acc => acc
  | sA :: rest, acc =>
    match spt.dist n sA with
    | none => candidateFold spt metric dest n rest acc
    | some c0 =>
      let c := c0 + metric sA dest
      let p := (spt.pathsT n sA).getD []
      if c < acc.2 then
        candidateFold spt metric dest n rest (extendPathsList p dest, c)
      else if c = acc.2 then
        candidateFold spt metric dest n rest
          (acc.1 ++ extendPathsList p dest, acc.2)
      else candidateFold spt metric dest n rest acc

/-- Row-and-cell update `t[a][b] = v` on a curried table. -/
def updCell {α : Type} (t : Nat → Nat → α) (a b : Nat) (v : α) :
    Nat → Nat → α :=
  Function.update t a (Function.update (t a) b v)

/-- Body of the router loop of `__update_default_paths`: fold the candidates
over `added` starting from `(paths, cost) = ([], sys.maxint)` and store the
row when any path was found. -/
def udpStep (metric : Nat → Nat → Int) (dest : Nat) (added : List Nat)
    (spt : SptTables) (n : Nat) : SptTables :=
  let r := candidateFold spt metric dest n added ([], pyMaxInt)
  if r.1 = [] then spt
  else
    { dist := updCell spt.dist n dest (some r.2),
      pathsT := updCell spt.pathsT n dest (some r.1) }

/-- `__update_default_paths` (utils.py lines 226-246): reset the destination
row, then run the candidate fold for every router. -/
def updateDefaultPaths (routers : List Nat) (metric : Nat → Nat → Int)
    (dest : Nat) (added : List Nat) (spt0 : SptTables) : SptTables :=
  let spt1 : SptTables :=
    { dist :=
        Function.update spt0.dist dest
          (fun y => if y = dest then some 0 else none),
      pathsT :=
        Function.update spt0.pathsT dest
          (fun y => if y = dest then some [[dest]] else none) }
  routers.foldl (udpStep metric dest added) spt1

/-- Candidate costs `dist(n,s) + metric(s,dest)` over the defined sources of
`added`, used to state the specification of `updateDefaultPaths`. -/
def candList (spt0 : SptTables) (metric : Nat → Nat → Int) (dest n : Nat)
    (added : List Nat) : List Int :=
  added.filterMap (fun sA => (spt0.dist n sA).map (fun c => c + metric sA dest))

/-- Candidate cost contributed by one source. -/
def cfCand (spt : SptTables) (metric : Nat → Nat → Int) (dest n sA : Nat) :
    Option Int :=
  (spt.dist n sA).map (fun c => c + metric sA dest)

/-- Paths extended through one source. -/
def cfExts (spt : SptTables) (dest n sA : Nat) : List (List Nat) :=
  extendPathsList ((spt.pathsT n sA).getD []) dest

/-- Running minimum of the candidate costs, seeded with the accumulator. -/
def cfMin (spt : SptTables) (metric : Nat → Nat → Int) (dest n : Nat)
    (l : List Nat) (c : Int) : Int :=
  (candList spt metric dest n l).foldl min c

/-- Result of the inner candidate fold of `__update_default_paths` for one
router, over the original tables. -/
def rowResult (spt : SptTables) (metric : Nat → Nat → Int) (dest n : Nat)
    (added : List Nat) : List (List Nat) × Int :=
  candidateFold spt metric dest n added ([], pyMaxInt)

/-! ### Solver node state (`merger.py`, class `Node`) -/

/-- Fake-node kinds `Node.GLOBAL` / `Node.LOCAL`. -/
inductive FakeKind
  | globalK
  | localK
deriving DecidableEq

/-- Per-destination solver state of a router (merger.py class `Node`):
bounds, fake-node marker, forced and original next-hop sets. -/
structure NodeV where
  lb : Int
  ub : Int
  fake : Option FakeKind
  forced : Finset Nat
  orig : Finset Nat
deriving DecidableEq

/-- `Node.has_fake_node`: `bool(self.forced_nhs) and (self.fake == subtype
if subtype else True)`. -/
def hasFakeNode (v : NodeV) (sub : Option FakeKind) : Bool :=
  decide v.forced.Nonempty &&
    (match sub with
     | none => true
     | some t => v.fake == some t)

/-- `Node.has_any_fake_node`. -/
def hasAnyFakeNode (v : NodeV) : Bool :=
  hasFakeNode v (some .globalK) || hasFakeNode v (some .localK)

/-! ### LSA emission (`Merger.create_fake_lsa`, merger.py lines 578-594) -/

/-- Emitted fake-LSA record (`utils.LSA` namedtuple). -/
structure FakeLsa where
  node : Nat
  nh : Nat
  cost : Int
  dest : Nat
deriving DecidableEq

/-- `Merger.create_fake_lsa`: iterate the DAG's nodes, skip the destination,
and emit one record per forced next-hop other than the destination, with
cost `lb + 1` for a global fake and `-1` otherwise.  Finset iteration is
determinized by sorting. -/
def createFakeLsa (dagNodes : List Nat) (dest : Nat) (nodes : Nat → NodeV) :
    List FakeLsa :=
  dagNodes.flatMap fun n =>
    if n = dest then []
    else
      (((nodes n).forced.sort (· ≤ ·)).filter (fun nh => decide (nh ≠ dest))).map
        fun nh =>
          { node := n, nh := nh,
            cost :=
              if (nodes n).fake = some .globalK then (nodes n).lb + 1 else -1,
            dest := dest }

/-- Per-node segment of `create_fake_lsa`'s output list. -/
def cflInner (dest : Nat) (nodes : Nat → NodeV) (n : Nat) : List FakeLsa :=
  if n = dest then []
  else
    (((nodes n).forced.sort (· ≤ ·)).filter (fun nh => decide (nh ≠ dest))).map
      fun nh =>
        { node := n, nh := nh,
          cost :=
            if (nodes n).fake = some .globalK then (nodes n).lb + 1 else -1,
          dest := dest }

/-! ### Solver state, bound propagation and merging
(`merger.py`, `Merger.propagate_lb` / `Merger.apply_merge`)

The per-destination solver state (`self.g.node[n]['data'][dest]` plus the
`self.ecmp` defaultdict of sets) is embedded as total functions from router
names, a missing `ecmp` entry being the empty set (defaultdict semantics).
Read-only inputs (the DAG, the shortest-path tables, the graph neighborhood)
form a context record.  Python set iteration is determinized by sorting, and
the unbounded `while`/DFS loops take explicit fuel. -/

/-- Modelled from the spec: the read-only inputs of the merge solver.
`dagSucc`/`dagPred` are the destination DAG, `defaultCost`/`defaultPath`
the shortest-path tables, and `realNeighbors` the graph neighborhood
restricted to real (non-fake) routers — `merger.py` calls
`self.g.real_neighbors`, a method that exists nowhere in the repository,
so `realNeighbors` follows the spec's description of the neighborhood
walked by `fake_neighbors` instead of source code. -/
structure SolverCtx where
  dagSucc : Nat → Finset Nat
  dagPred : Nat → List Nat
  defaultCost : Nat → Nat → Int
  defaultPath : Nat → Nat → List (List Nat)
  realNeighbors : Nat → Finset Nat

structure MState where
  nodes : Nat → NodeV
  ecmp : Nat → Finset Nat

def MState.setNode (s : MState) (n : Nat) (v : NodeV) : MState :=
  { s with nodes := Function.update s.nodes n v }

def setLb (s : MState) (n : Nat) (x : Int) : MState :=
  s.setNode n { s.nodes n with lb := x }

def setUb (s : MState) (n : Nat) (x : Int) : MState :=
  s.setNode n { s.nodes n with ub := x }

/-- `node.forced_nhs.add(nh)` (used as a recorded undo action). -/
def insertForced (s : MState) (n nh : Nat) : MState :=
  s.setNode n { s.nodes n with forced := insert nh (s.nodes n).forced }

/-- `node.forced_nhs.remove(nh)`; the `KeyError` raised on a missing element
is excluded by the hypotheses of the theorems below. -/
def eraseForced (s : MState) (n nh : Nat) : MState :=
  s.setNode n { s.nodes n with forced := (s.nodes n).forced.erase nh }

/-- `Node.add_fake_node(type)`: set the fake marker only. -/
def setFake (s : MState) (n : Nat) (fk : Option FakeKind) : MState :=
  s.setNode n { s.nodes n with fake := fk }

/-- `Node.remove_fake_node()`: clear the marker and the forced set. -/
def removeFakeNode (s : MState) (n : Nat) : MState :=
  s.setNode n { s.nodes n with fake := none, forced := ∅ }

def MState.setEcmp (s : MState) (e : Nat) (es : Finset Nat) : MState :=
  { s with ecmp := Function.update s.ecmp e es }

def ecmpInsert (s : MState) (e x : Nat) : MState :=
  s.setEcmp e (insert x (s.ecmp e))

def ecmpErase (s : MState) (e x : Nat) : MState :=
  s.setEcmp e ((s.ecmp e).erase x)

/-- `Merger.ecmp_dep(n)`, sorted for deterministic iteration. -/
def ecmpDepList (s : MState) (n : Nat) : List Nat :=
  (s.ecmp n).sort (· ≤ ·)

def dagHasEdge (ctx : SolverCtx) (u v : Nat) : Bool :=
  decide (v ∈ ctx.dagSucc u)

/-- Body of `Merger.dag_include_spt` for one path: walk consecutive pairs,
fail on a pair outside the DAG, stop at the first arrival at `t`. -/
def pathInDagUpto (ctx : SolverCtx) (t : Nat) : List Nat → Bool
  | u :: v :: rest =>
    if !(dagHasEdge ctx u v) then false
    else if v = t then true
    else pathInDagUpto ctx t (v :: rest)
  | _ => true

/-- `Merger.dag_include_spt` (merger.py lines 414-426). -/
def dagIncludeSpt (ctx : SolverCtx) (n t : Nat) : Bool :=
  (ctx.defaultPath n t).all (pathInDagUpto ctx t)

/-- Deterministic stand-in for a Python `set.pop()`: the smallest element. -/
def finsetPop (s : Finset Nat) : Option (Nat × Finset Nat) :=
  match s.sort (· ≤ ·) with
  | [] => none
  | n :: _ => some (n, s.erase n)

/-- DFS of `Merger.fake_neighbors` (merger.py lines 614-628): explore
`real_neighbors` through routers without a global fake node, yielding the
fake-node holders found.  `real_neighbors` is read from the context. -/
def fakeNeighborsAux (ctx : SolverCtx) (st : MState) :
    Nat → Finset Nat → Finset Nat → List Nat
  | 0, _, _ => []
  | fuel + 1, visited, toVisit =>
    match finsetPop toVisit with
    | none => []
    | some (n, tv) =>
      if n ∈ visited then fakeNeighborsAux ctx st fuel visited tv
      else if hasFakeNode (st.nodes n) (some .globalK) then
        n :: fakeNeighborsAux ctx st fuel (insert n visited) tv
      else
        fakeNeighborsAux ctx st fuel (insert n visited)
          (tv ∪ ctx.realNeighbors n)

def fakeNeighbors (ctx : SolverCtx) (st : MState) (gas : Nat) (node : Nat) :
    List Nat :=
  fakeNeighborsAux ctx st gas ∅ (ctx.realNeighbors node)

/-- `Merger.get_delta` (merger.py lines 361-368): `lb` minus the cost to the
nearest fake neighbor, `-sys.maxint` when there is none. -/
def getDelta (ctx : SolverCtx) (st : MState) (gas : Nat) (n : Nat) : Int :=
  let cs := (fakeNeighbors ctx st gas n).map (fun m => ctx.defaultCost n m)
  match cs.min? with
  | none => -pyMaxInt
  | some m => (st.nodes n).lb - m

/-- Stack walk of `Merger.fixed_nodes_for` (merger.py lines 344-359). -/
def fixedNodesForAux (ctx : SolverCtx) (st : MState) :
    Nat → List (Nat × Nat) → Finset Nat → Finset Nat
  | 0, _, acc => acc
  | _ + 1, [], acc => acc
  | fuel + 1, (u, v) :: stack, acc =>
    if v ∈ (st.nodes u).forced then fixedNodesForAux ctx st fuel stack acc
    else if u ∈ acc then fixedNodesForAux ctx st fuel stack acc
    else
      fixedNodesForAux ctx st fuel
        (((ctx.dagPred u).map (fun p => (p, u))) ++ stack) (insert u acc)

def fixedNodesFor (ctx : SolverCtx) (st : MState) (gas : Nat) (n : Nat) :
    Finset Nat :=
  fixedNodesForAux ctx st gas ((ctx.dagPred n).map (fun p => (p, n))) ∅

/-- `Merger.inherit_lb` (merger.py lines 370-384). -/
def inheritLb (ctx : SolverCtx) (st : MState) (tgt fromN : Nat)
    (fixedN : List Nat) : Int :=
  let f := fun k =>
    ctx.defaultCost fromN k - ctx.defaultCost k tgt +
      (if dagIncludeSpt ctx k tgt then 0 else 1)
  (st.nodes fromN).lb + (fixedN.map f).foldl max (f fromN)

/-- `Merger.valid_range` (merger.py lines 634-639). -/
def validRange (ctx : SolverCtx) (st : MState) (sN : Nat) (lb ub : Int) :
    Bool :=
  let pad : Int := if ctx.dagSucc sN = (st.nodes sN).orig then 1 else 0
  decide (lb + 1 < ub + pad)

/-! #### The undo log (`apply_merge`'s `undos` list)

`record_undo` pushes a closure; `undo_all` applies the recorded closures in
reverse recording order.  The log is a list with the newest entry first, so
`undo_all` is a left fold. -/

def runUndos (l : List (MState → MState)) (s : MState) : MState :=
  l.foldl (fun s f => f s) s

structure MLog where
  st : MState
  undos : List (MState → MState)

/-- `undo_all()`. -/
def MLog.rollback (ml : MLog) : MState := runUndos ml.undos ml.st

/-- A mutation together with its recorded undo closure. -/
def recMut (f u : MState → MState) (ml : MLog) : MLog :=
  ⟨f ml.st, u :: ml.undos⟩

/-- `propagation_assign` (merger.py lines 470-474): record the old `lb`
then increase it. -/
def pAssign (n : Nat) (d : Int) (ml : MLog) : MLog :=
  let old := (ml.st.nodes n).lb
  recMut (fun s => setLb s n ((s.nodes n).lb + d)) (fun s => setLb s n old) ml

/-- Order of the `(delta, node)` tuples in the `MaxHeap` of `propagate_lb`
(lexicographic tuple comparison). -/
def pqLe (a b : Int × Nat) : Bool :=
  decide (a.1 < b.1) || (a.1 == b.1 && decide (a.2 ≤ b.2))

/-- Pop the largest tuple (deterministic replacement of `heapq` behaviour on
ties). -/
def pqPopMax : List (Int × Nat) → Option ((Int × Nat) × List (Int × Nat))
  | [] => none
  | x :: xs =>
    match pqPopMax xs with
    | none => some (x, [])
    | some (m, rest) => if pqLe x m then some (m, x :: rest) else some (x, xs)

/-- ECMP-dependency inner loop of `propagate_lb` (merger.py lines 319-336),
as instantiated by `apply_merge` (`assign = propagation_assign`).  Returns
the queue, the log, and whether the loop set `failed`. -/
def propEcmpLoop (ctx : SolverCtx) (gas : Nat) (lbDiff : Int) (nName : Nat) :
    List Nat → List (Int × Nat) → MLog →
      List (Int × Nat) × MLog × Bool
  | [], pq, ml => (pq, ml, false)
  | e :: rest, pq, ml =>
    if e = nName then propEcmpLoop ctx gas lbDiff nName rest pq ml
    else
      let eN := ml.st.nodes e
      if validRange ctx ml.st e (eN.lb + lbDiff) eN.ub then
        let ml1 := pAssign e lbDiff ml
        let pq1 := (getDelta ctx ml1.st gas e, e) :: pq
        propEcmpLoop ctx gas lbDiff nName rest pq1 ml1
      else (pq, ml, true)

/-- Neighbor loop of `propagate_lb` (merger.py lines 300-343) as
instantiated by `apply_merge`: its `fail_func` (`propagation_fail`) always
returns `True`, so any failure returns from the whole propagation
(`Sum.inr`); `Sum.inl` resumes the outer loop. -/
def propNeighbors (ctx : SolverCtx) (gas : Nat) (fixedN : List Nat)
    (nodeName : Nat) :
    List Nat → List (Int × Nat) → Finset (Nat × Nat) → MLog →
      Sum (List (Int × Nat) × Finset (Nat × Nat) × MLog) MLog
  | [], pq, updates, ml => .inl (pq, updates, ml)
  | n :: rest, pq, updates, ml =>
    let lbDiff := inheritLb ctx ml.st n nodeName fixedN - (ml.st.nodes n).lb
    if lbDiff > 0 then
      if (nodeName, n) ∈ updates then .inr ml
      else
        let updates1 := insert (nodeName, n) updates
        if (ml.st.nodes n).lb + lbDiff + 1 < (ml.st.nodes n).ub then
          let ml1 := pAssign n lbDiff ml
          let pq1 := (getDelta ctx ml1.st gas n, n) :: pq
          match propEcmpLoop ctx gas lbDiff n (ecmpDepList ml1.st n) pq1 ml1
          with
          | (pq2, ml2, false) =>
            propNeighbors ctx gas fixedN nodeName rest pq2 updates1 ml2
          | (_, ml2, true) => .inr ml2
        else .inr ml
    else propNeighbors ctx gas fixedN nodeName rest pq updates ml

/-- Main loop of `propagate_lb` (merger.py lines 284-343) as instantiated by
`apply_merge`.  Fuel exhaustion is reported as a failure so that the caller
rolls back; any run of the Python loop that terminates is reproduced by a
large enough fuel. -/
def propLoop (ctx : SolverCtx) (gas : Nat) :
    Nat → List (Int × Nat) → Finset (Nat × Nat) → MLog → MLog × Bool
  | 0, _, _, ml => (ml, true)
  | fuel + 1, pq, updates, ml =>
    match pqPopMax pq with
    | none => (ml, false)
    | some ((delta, nodeName), pq1) =>
      if delta < getDelta ctx ml.st gas nodeName then
        propLoop ctx gas fuel pq1 updates ml
      else
        let fixedN := (fixedNodesFor ctx ml.st gas nodeName).sort (· ≤ ·)
        match
          propNeighbors ctx gas fixedN nodeName
            (fakeNeighbors ctx ml.st gas nodeName) pq1 updates ml
        with
        | .inl (pq2, updates2, ml2) => propLoop ctx gas fuel pq2 updates2 ml2
        | .inr ml2 => (ml2, true)

/-- `propagate_lb(assign=propagation_assign, fail_func=propagation_fail,
initial_nodes=...)` as called at the end of `apply_merge`. -/
def propagateLbMerge (ctx : SolverCtx) (gas fuel : Nat)
    (initialNodes : List Nat) (ml : MLog) : MLog × Bool :=
  let pq := initialNodes.map (fun n => (getDelta ctx ml.st gas n, n))
  propLoop ctx gas fuel pq ∅ ml

/-- Opening mutation of one ECMP-dependency iteration of `apply_merge`
(merger.py lines 509-511): when the global fake node of `n` is being
removed, drop it from the dependent's ECMP set, recording the
re-insertion as undo. -/
def melStepA (nName e : Nat) (removeN : Bool) (ml : MLog) : MLog :=
  if removeN then
    recMut (fun st => ecmpErase st e nName)
      (fun st => ecmpInsert st e nName) ml
  else ml

/-- merger.py lines 515-518: register the dependent in `s`'s ECMP set if it
is not yet there, recording the removal as undo. -/
def melStepB (sName e : Nat) (ml : MLog) : MLog :=
  if e ∈ ml.st.ecmp sName then ml
  else
    recMut (fun st => ecmpInsert st sName e)
      (fun st => ecmpErase st sName e) ml

/-- merger.py lines 519-522: the symmetric registration of `s` in the
dependent's ECMP set. -/
def melStepC (sName e : Nat) (ml : MLog) : MLog :=
  if sName ∈ ml.st.ecmp e then ml
  else
    recMut (fun st => ecmpInsert st e sName)
      (fun st => ecmpErase st e sName) ml

/-- ECMP-dependency loop of `apply_merge` (merger.py lines 508-531).
`Sum.inr` is the `undo_all(); return` path taken when an ECMP dependent's
widened lower bound falls outside its valid range. -/
def mergeEcmpLoop (ctx : SolverCtx) (nName sName : Nat) (pci : Int)
    (removeN : Bool) : List Nat → MLog → Sum MLog MLog
  | [], ml => .inl ml
  | e :: rest, ml =>
    let ml1 := melStepA nName e removeN ml
    if removeN ∧ e = nName then
      mergeEcmpLoop ctx nName sName pci removeN rest ml1
    else
      let ml3 := melStepC sName e (melStepB sName e ml1)
      let newLb := (ml3.st.nodes e).lb + pci
      if validRange ctx ml3.st e newLb (ml3.st.nodes e).ub then
        let old := (ml3.st.nodes e).lb
        let ml4 :=
          recMut (fun st => setLb st e newLb) (fun st => setLb st e old) ml3
        mergeEcmpLoop ctx nName sName pci removeN rest ml4
      else .inr ml3

/-- Opening mutations of `apply_merge` (merger.py lines 478-490): remove the
merged next-hop from `n`'s forced set and install the combined bounds on
`s`, recording the undo closures with the old values. -/
def amSetup (s0 : MState) (n s : Nat) (lb ub : Int) (nh : Nat) : MLog :=
  let ml0 : MLog := ⟨s0, []⟩
  let ml1 :=
    recMut (fun st => eraseForced st n nh) (fun st => insertForced st n nh)
      ml0
  let oldLb := (ml1.st.nodes s).lb
  let oldUb := (ml1.st.nodes s).ub
  let ml2 :=
    recMut (fun st => setLb st s lb) (fun st => setLb st s oldLb) ml1
  recMut (fun st => setUb st s ub) (fun st => setUb st s oldUb) ml2

/-- `path_cost_increase` (merger.py line 485), read after the forced-set
removal and before the bound assignment. -/
def amPci (ctx : SolverCtx) (s0 : MState) (n s nh : Nat) : Int :=
  ctx.defaultCost n s + ((eraseForced s0 n nh).nodes s).lb -
    ((eraseForced s0 n nh).nodes n).lb

/-- Case analysis helper for the loop results. -/
def sumMLog :
    Sum (List (Int × Nat) × Finset (Nat × Nat) × MLog) MLog → MLog
  | .inl (_, _, ml) => ml
  | .inr ml => ml

/-- Case analysis helper for `mergeEcmpLoop` results. -/
def sumMLog2 : Sum MLog MLog → MLog
  | .inl ml => ml
  | .inr ml => ml

/-- `Merger.apply_merge` (merger.py lines 451-541).  The boolean result
records whether the merge failed (and `undo_all` ran): `s` being an ECMP
dependency of `n`, an ECMP dependent with an invalid widened range, or a
failure of the lower-bound re-propagation. -/
def applyMerge (ctx : SolverCtx) (gas fuel : Nat) (s0 : MState)
    (n s : Nat) (lb ub : Int) (nh : Nat) : MState × Bool :=
  let ml3 := amSetup s0 n s lb ub nh
  let pci := amPci ctx s0 n s nh
  let ecmpDeps := ecmpDepList ml3.st n
  if s ∈ ecmpDeps then (ml3.rollback, true)
  else
    let removeN := !(hasFakeNode (ml3.st.nodes n) (some .globalK))
    let fk := (ml3.st.nodes n).fake
    let ml4 :=
      if removeN then
        recMut (fun st => removeFakeNode st n) (fun st => setFake st n fk)
          ml3
      else ml3
    match mergeEcmpLoop ctx n s pci removeN ecmpDeps ml4 with
    | .inr mlF => (mlF.rollback, true)
    | .inl ml5 =>
      match propagateLbMerge ctx gas fuel (ecmpDeps ++ [s]) ml5 with
      | (mlF, true) => (mlF.rollback, true)
      | (ml6, false) => (ml6.st, false)

/-! ### Helper notions used by the statements below -/

/-- Result of replaying a sequence of dict updates onto an optional original
edge-data dict: `networkx` starts from the existing dict if the edge is
present and from an empty one otherwise. -/
def applyUpd : Option EdgeData → List EdgeData → Option EdgeData
  | o, [] => o
  | some d0, ds => some (ds.foldl edUpdate d0)
  | none, d :: ds => some (ds.foldl edUpdate d)

/-- Data dicts of the group out-edges towards `v`, in the order `contract`
replays them. -/
def outIntoData (g : Graph) (nbunch : List Nat) (v : Nat) : List EdgeData :=
  ((g.outEdgesOf nbunch).filter (fun e => decide (e.1.2 = v))).map (·.2)

/-- Concrete solver-state table used by the `create_fake_lsa` witness. -/
def wNodes : Nat → NodeV := fun n =>
  if n = 0 then ⟨0, 9, some .globalK, {2}, ∅⟩ else ⟨0, 0, none, ∅, ∅⟩

/-- Trivial solver context used by the `apply_merge` witness. -/
def wCtx : SolverCtx :=
  ⟨fun _ => ∅, fun _ => [], fun _ _ => 0, fun _ _ => [], fun _ => ∅⟩

/-- Concrete solver state used by the `apply_merge` witness: router 0 holds a
global fake node forced through 1, and 0 and 1 are mutually ECMP
dependent. -/
def wState : MState :=
  { nodes := fun k =>
      if k = 0 then ⟨0, 10, some .globalK, {1}, ∅⟩
      else ⟨0, 10, some .globalK, {2}, ∅⟩,
    ecmp := fun k => if k = 0 then {1} else if k = 1 then {0} else ∅ }

/-- Concrete shortest-path tables used by the destination-addition witness:
router 2 reaches sink 5 at cost 4 along the single path `[2, 5]`. -/
def wSpt : SptTables :=
  { dist := fun a b => if a = 2 ∧ b = 5 then some 4 else none,
    pathsT := fun a b => if a = 2 ∧ b = 5 then some [[2, 5]] else none }

/-! ## Theorems -/

/-! ### Association-list and fold lemmas -/

theorem assocFind_assocPut {α β : Type} [DecidableEq α] (l : List (α × β))
    (k : α) (v : β) (k' : α) :
    assocFind (assocPut l k v) k' =
      if k' = k then some v else assocFind l k' := by
  induction l with
  | nil =>
    simp only [assocPut, assocFind]
    by_cases h : k = k'
    · simp [h]
    · have h2 : ¬k' = k := fun e => h e.symm
      simp [h, h2]
  | cons hd t ih =>
    obtain ⟨k0, v0⟩ := hd
    simp only [assocPut]
    by_cases hk : k0 = k
    · subst hk
      simp only [if_pos rfl, assocFind]
      by_cases h' : k0 = k'
      · simp [h', if_pos rfl]
      · have h2 : ¬k' = k0 := fun e => h' e.symm
        simp [h', h2]
    · simp only [if_neg hk, assocFind, ih]
      by_cases h0 : k0 = k'
      · subst h0
        have h2 : ¬k0 = k := fun e => hk e
        simp [h2]
      · simp [h0]

theorem assocFind_assocDel_ne {α β : Type} [DecidableEq α]
    (l : List (α × β)) (k0 k : α) (h : k ≠ k0) :
    assocFind (assocDel l k0) k = assocFind l k := by
  induction l with
  | nil => rfl
  | cons hd t ih =>
    obtain ⟨k1, v1⟩ := hd
    simp only [assocDel]
    by_cases h1 : k1 = k0
    · subst h1
      simp only [if_pos rfl, assocFind]
      have h2 : ¬k1 = k := fun e => h e.symm
      simp [h2]
    · simp [if_neg h1, assocFind, ih]

theorem assocFind_append_single {α β : Type} [DecidableEq α]
    (l : List (α × β)) (k : α) (v : β) (k' : α) :
    assocFind (l ++ [(k, v)]) k' =
      match assocFind l k' with
      | some x => some x
      | none => if k' = k then some v else none := by
  induction l with
  | nil =>
    simp only [List.nil_append, assocFind]
    by_cases h : k = k'
    · simp [h]
    · have h2 : ¬k' = k := fun e => h e.symm
      simp [h, h2]
  | cons hd t ih =>
    obtain ⟨k1, v1⟩ := hd
    by_cases hk' : k1 = k'
    · simp [assocFind, hk']
    · simpa [assocFind, hk'] using ih

theorem assocFind_filterKeys {α β : Type} [DecidableEq α] (q : α → Bool)
    (l : List (α × β)) (k : α) :
    assocFind (l.filter (fun p => q p.1)) k =
      if q k then assocFind l k else none := by
  induction l with
  | nil => simp [assocFind]
  | cons hd t ih =>
    obtain ⟨k1, v1⟩ := hd
    by_cases hq : q k1
    · by_cases hk : k1 = k
      · subst hk
        simp [List.filter_cons, hq, assocFind]
      · simp [List.filter_cons, hq, assocFind, hk, ih]
    · by_cases hk : k1 = k
      · subst hk
        simp [List.filter_cons, hq, assocFind, ih]
      · simp [List.filter_cons, hq, assocFind, hk, ih]

theorem foldl_skip_filter {α β : Type} (p : α → Bool) (f : β → α → β) :
    ∀ (l : List α) (b : β),
      l.foldl (fun g x => if p x then g else f g x) b =
        (l.filter (fun x => !p x)).foldl f b := by
  intro l
  induction l with
  | nil => intro b; rfl
  | cons hd t ih =>
    intro b
    by_cases hp : p hd <;> simp [List.filter_cons, hp, ih]

/-! ### Graph-operation lemmas -/

theorem edges_addNode (g : Graph) (n : Nat) (d : NodeData) :
    (g.addNode n d).edges = g.edges := by
  rw [Graph.addNode]
  cases assocFind g.nodes n <;> rfl

theorem getEdge_addNode (g : Graph) (n : Nat) (d : NodeData) (u v : Nat) :
    (g.addNode n d).getEdge u v = g.getEdge u v := by
  rw [Graph.getEdge, Graph.getEdge, edges_addNode]

theorem getEdge_addEdge (g : Graph) (a b : Nat) (d : EdgeData) (u v : Nat) :
    (g.addEdge a b d).getEdge u v =
      if (u, v) = (a, b) then
        some
          (match g.getEdge a b with
           | some old => edUpdate old d
           | none => d)
      else g.getEdge u v := by
  have hedges : ((g.addNode a {}).addNode b {}).edges = g.edges := by
    rw [edges_addNode, edges_addNode]
  have hget : ((g.addNode a {}).addNode b {}).getEdge a b = g.getEdge a b :=
    by rw [getEdge_addNode, getEdge_addNode]
  simp only [Graph.addEdge, hget]
  cases h : g.getEdge a b with
  | some old =>
    simp only [Graph.getEdge, hedges, assocFind_assocPut]
  | none =>
    simp only [Graph.getEdge, hedges, assocFind_append_single]
    by_cases he : (u, v) = (a, b)
    · rw [he]
      simp [Graph.getEdge] at h
      simp [h]
    · cases h2 : assocFind g.edges (u, v) <;> simp [he, h2]

theorem getEdge_addRoute (g : Graph) (r p : Nat) (d : EdgeData) (u v : Nat) :
    (g.addRoute r p d).getEdge u v =
      if (u, v) = (r, p) then
        some
          (match g.getEdge r p with
           | some old => edUpdate old d
           | none => d)
      else g.getEdge u v := by
  rw [Graph.addRoute, getEdge_addEdge]
  simp only [getEdge_addNode]

theorem getEdge_addFakeRoute (g : Graph) (r p : Nat) (d : EdgeData)
    (u v : Nat) :
    (g.addFakeRoute r p d).getEdge u v =
      if (u, v) = (r, p) then
        some
          (match g.getEdge r p with
           | some old => edUpdate old { d with fakeFlag := some true }
           | none => { d with fakeFlag := some true })
      else g.getEdge u v := by
  rw [Graph.addFakeRoute, getEdge_addRoute]

/-! ### Folds of synthesized destination edges (`add_dest_to_graph`) -/

/-- Shape of a synthesized fake-route edge with metric `mk`. -/
def synthEdge (mk : Option Int) : EdgeData :=
  { metric := mk, srcAddress := none, fakeFlag := some true, target := none }

theorem foldFake_getEdge_ne (dest : Nat) (mk : Option Int) :
    ∀ (l : List Nat) (g : Graph) (u v : Nat), v ≠ dest →
      (l.foldl (fun h s => h.addFakeRoute s dest { metric := mk }) g).getEdge
          u v = g.getEdge u v := by
  intro l
  induction l with
  | nil => intro g u v _; rfl
  | cons p t ih =>
    intro g u v hv
    rw [List.foldl_cons, ih _ _ _ hv, getEdge_addFakeRoute]
    have hne : (u, v) ≠ (p, dest) := fun e => hv (congrArg Prod.snd e)
    simp [hne]

theorem foldPlain_getEdge_ne (dest : Nat) (mk : Option Int) :
    ∀ (l : List Nat) (g : Graph) (u v : Nat), v ≠ dest →
      (l.foldl (fun h s => h.addEdge s dest { metric := mk }) g).getEdge
          u v = g.getEdge u v := by
  intro l
  induction l with
  | nil => intro g u v _; rfl
  | cons p t ih =>
    intro g u v hv
    rw [List.foldl_cons, ih _ _ _ hv, getEdge_addEdge]
    have hne : (u, v) ≠ (p, dest) := fun e => hv (congrArg Prod.snd e)
    simp [hne]

/-- One `add_fake_route s dest {metric}` step turns the `(s, dest)` edge into
`synthEdge mk`, given that it was absent or already of that shape. -/
theorem addFakeRoute_step (g : Graph) (s dest : Nat) (mk : Option Int)
    (h : g.getEdge s dest = none ∨ g.getEdge s dest = some (synthEdge mk)) :
    (g.addFakeRoute s dest { metric := mk }).getEdge s dest =
      some (synthEdge mk) := by
  rw [getEdge_addFakeRoute]
  rcases h with h | h
  · simp [h, synthEdge]
  · simp [h, synthEdge, edUpdate]
    cases mk <;> rfl

theorem foldFake_invariant (dest : Nat) (mk : Option Int) :
    ∀ (l : List Nat) (g : Graph),
      (∀ q, g.getEdge q dest = none ∨ g.getEdge q dest = some (synthEdge mk))
      →
      (∀ q,
          (l.foldl (fun h s => h.addFakeRoute s dest { metric := mk })
                g).getEdge q dest = none ∨
            (l.foldl (fun h s => h.addFakeRoute s dest { metric := mk })
                g).getEdge q dest = some (synthEdge mk)) ∧
        ∀ q, g.getEdge q dest = some (synthEdge mk) →
          (l.foldl (fun h s => h.addFakeRoute s dest { metric := mk })
              g).getEdge q dest = some (synthEdge mk) := by
  intro l
  induction l with
  | nil => intro g hg; exact ⟨hg, fun q hq => hq⟩
  | cons p t ih =>
    intro g hg
    have hstep : ∀ q,
        (g.addFakeRoute p dest { metric := mk }).getEdge q dest = none ∨
          (g.addFakeRoute p dest { metric := mk }).getEdge q dest =
            some (synthEdge mk) := by
      intro q
      by_cases hq : q = p
      · subst hq
        exact Or.inr (addFakeRoute_step g q dest mk (hg q))
      · rw [getEdge_addFakeRoute]
        have hne : (q, dest) ≠ (p, dest) := by
          intro e; exact hq (congrArg Prod.fst e)
        simp only [if_neg hne]
        exact hg q
    refine ⟨(ih _ hstep).1, fun q hq => (ih _ hstep).2 q ?_⟩
    by_cases hqp : q = p
    · subst hqp
      exact addFakeRoute_step g q dest mk (Or.inr hq)
    · rw [getEdge_addFakeRoute]
      have hne : (q, dest) ≠ (p, dest) := by
        intro e; exact hqp (congrArg Prod.fst e)
      simp only [if_neg hne]
      exact hq

theorem foldFake_getEdge_mem (dest : Nat) (mk : Option Int) :
    ∀ (l : List Nat) (g : Graph) (p : Nat), p ∈ l →
      (∀ q, g.getEdge q dest = none ∨ g.getEdge q dest = some (synthEdge mk))
      →
      (l.foldl (fun h s => h.addFakeRoute s dest { metric := mk }) g).getEdge
          p dest = some (synthEdge mk) := by
  intro l
  induction l with
  | nil => intro g p hp; cases hp
  | cons a t ih =>
    intro g p hp hg
    have hstep : ∀ q,
        (g.addFakeRoute a dest { metric := mk }).getEdge q dest = none ∨
          (g.addFakeRoute a dest { metric := mk }).getEdge q dest =
            some (synthEdge mk) := by
      intro q
      by_cases hq : q = a
      · subst hq
        exact Or.inr (addFakeRoute_step g q dest mk (hg q))
      · rw [getEdge_addFakeRoute]
        have hne : (q, dest) ≠ (a, dest) := by
          intro e; exact hq (congrArg Prod.fst e)
        simp only [if_neg hne]
        exact hg q
    rcases List.mem_cons.1 hp with hpa | hpt
    · subst hpa
      rw [List.foldl_cons]
      exact (foldFake_invariant dest mk t _ hstep).2 p
        (addFakeRoute_step g p dest mk (hg p))
    · rw [List.foldl_cons]
      exact ih _ p hpt hstep

/-- The redundant `add_edges_from` pass keeps a synthesized edge intact. -/
theorem foldPlain_keeps_synth (dest : Nat) (mk : Option Int) :
    ∀ (l : List Nat) (g : Graph) (q : Nat),
      g.getEdge q dest = some (synthEdge mk) →
      (l.foldl (fun h s => h.addEdge s dest { metric := mk }) g).getEdge
          q dest = some (synthEdge mk) := by
  intro l
  induction l with
  | nil => intro g q hq; exact hq
  | cons a t ih =>
    intro g q hq
    rw [List.foldl_cons]
    refine ih _ q ?_
    rw [getEdge_addEdge]
    by_cases hqa : q = a
    · subst hqa
      simp only [if_pos rfl, hq]
      cases mk <;> rfl
    · have hne : (q, dest) ≠ (a, dest) := by
        intro e; exact hqa (congrArg Prod.fst e)
      simp only [if_neg hne]
      exact hq

theorem addFakeRoute_mark (g : Graph) (s dest : Nat) (m : Int) :
    ∃ d,
      (g.addFakeRoute s dest { metric := some m }).getEdge s dest = some d ∧
        d.metric = some m ∧ d.fakeFlag = some true := by
  rw [getEdge_addFakeRoute]
  rw [if_pos rfl]
  cases h : g.getEdge s dest
  · exact ⟨_, rfl, rfl, rfl⟩
  · exact ⟨_, rfl, rfl, rfl⟩

theorem foldFake_mark (dest : Nat) (m : Int) :
    ∀ (l : List Nat) (g : Graph) (p : Nat),
      (p ∈ l ∨ ∃ d, g.getEdge p dest = some d ∧ d.metric = some m ∧
        d.fakeFlag = some true) →
      ∃ d,
        (l.foldl (fun h s => h.addFakeRoute s dest { metric := some m })
              g).getEdge p dest = some d ∧
          d.metric = some m ∧ d.fakeFlag = some true := by
  intro l
  induction l with
  | nil =>
    intro g p hp
    rcases hp with hp | hp
    · cases hp
    · exact hp
  | cons a t ih =>
    intro g p hp
    rw [List.foldl_cons]
    by_cases hpa : p = a
    · subst hpa
      exact ih _ p (Or.inr (addFakeRoute_mark g p dest m))
    · refine ih _ p ?_
      rcases hp with hp | hp
      · rcases List.mem_cons.1 hp with h1 | h1
        · exact absurd h1 hpa
        · exact Or.inl h1
      · refine Or.inr ?_
        rw [getEdge_addFakeRoute]
        have hne : (p, dest) ≠ (a, dest) :=
          fun e => hpa (congrArg Prod.fst e)
        rw [if_neg hne]
        exact hp

theorem foldPlain_keeps_mark (dest : Nat) (m : Int) :
    ∀ (l : List Nat) (g : Graph) (p : Nat),
      (∃ d, g.getEdge p dest = some d ∧ d.metric = some m ∧
        d.fakeFlag = some true) →
      ∃ d,
        (l.foldl (fun h s => h.addEdge s dest { metric := some m })
              g).getEdge p dest = some d ∧
          d.metric = some m ∧ d.fakeFlag = some true := by
  intro l
  induction l with
  | nil =>
    intro g p hp
    exact hp
  | cons a t ih =>
    intro g p hp
    rw [List.foldl_cons]
    refine ih _ p ?_
    rcases hp with ⟨d, hd, hdm, hdf⟩
    by_cases hpa : p = a
    · subst hpa
      rw [getEdge_addEdge, if_pos rfl, hd]
      exact ⟨_, rfl, rfl, hdf⟩
    · rw [getEdge_addEdge]
      have hne : (p, dest) ≠ (a, dest) := fun e => hpa (congrArg Prod.fst e)
      rw [if_neg hne]
      exact ⟨d, hd, hdm, hdf⟩

/-- C7 (amended): when `check_dest` handles a destination that is not yet a
real prefix node of the graph — whether absent outright or present but
announced only through fake links, the two cases of the synthesis guard in
`add_dest_to_graph` — it synthesizes, for every DAG predecessor `p`, a
fake-route edge `(p, dest)` carrying the configured metric whose default is
`int(10e3)` = 10000 (the edge is exactly `synthEdge` when no edge into
`dest` pre-existed; a pre-existing fake edge keeps its other keys while the
metric and fake mark are overwritten, networkx `dict.update` semantics);
all edges not ending at `dest` are untouched and the added-source list
handed to the SPT update is the predecessor list. -/
theorem check_dest_synthesizes_edges (dest : Nat) (g : Graph)
    (dagPreds : List Nat)
    (hN : ¬(g.hasNode dest = true ∧ ¬ isFakeDest g dest = true)) :
    (∀ p ∈ dagPreds, ∃ d,
        (checkDestGraph dest g dagPreds).1.getEdge p dest = some d ∧
          d.metric = some mergerNewEdgeMetric ∧ d.fakeFlag = some true) ∧
      ((∀ q, g.getEdge q dest = none) → ∀ p ∈ dagPreds,
          (checkDestGraph dest g dagPreds).1.getEdge p dest =
            some (synthEdge (some mergerNewEdgeMetric))) ∧
      (∀ u v, v ≠ dest →
          (checkDestGraph dest g dagPreds).1.getEdge u v = g.getEdge u v) ∧
      (checkDestGraph dest g dagPreds).2 = dagPreds ∧
      mergerNewEdgeMetric = 10000 := by
  rw [checkDestGraph, addDestToGraph]
  rw [if_neg hN]
  refine ⟨?_, ?_, ?_, rfl, rfl⟩
  · intro p hp
    rw [getEdge_addNode]
    exact foldPlain_keeps_mark dest mergerNewEdgeMetric dagPreds _ p
      (foldFake_mark dest mergerNewEdgeMetric dagPreds g p (Or.inl hp))
  · intro hE p hp
    rw [getEdge_addNode]
    refine foldPlain_keeps_synth dest (some mergerNewEdgeMetric)
      dagPreds _ p ?_
    exact foldFake_getEdge_mem dest (some mergerNewEdgeMetric) dagPreds g p
      hp (fun q => Or.inl (hE q))
  · intro u v hv
    rw [getEdge_addNode]
    rw [foldPlain_getEdge_ne dest (some mergerNewEdgeMetric) dagPreds _ u v
      hv]
    exact foldFake_getEdge_ne dest (some mergerNewEdgeMetric) dagPreds g u v
      hv

/-- Witness for `check_dest_synthesizes_edges`, exercising both cases of
the synthesis guard: a destination absent from a one-router graph gets the
exact `synthEdge`, and a destination already present but announced only
through a fake link still gets a fake-marked edge with the default
metric. -/
theorem check_dest_synthesizes_edges_witness :
    (¬((emptyGraph.addRouter 1).hasNode 5 = true ∧
        ¬ isFakeDest (emptyGraph.addRouter 1) 5 = true)) ∧
      (checkDestGraph 5 (emptyGraph.addRouter 1) [1]).1.getEdge 1 5 =
        some (synthEdge (some mergerNewEdgeMetric)) ∧
      (((emptyGraph.addRouter 1).addFakeRoute 2 5
            { metric := some 7 }).hasNode 5 = true ∧
        isFakeDest
          ((emptyGraph.addRouter 1).addFakeRoute 2 5 { metric := some 7 })
          5 = true) ∧
      ∃ d,
        (checkDestGraph 5
              ((emptyGraph.addRouter 1).addFakeRoute 2 5
                { metric := some 7 }) [1]).1.getEdge 1 5 = some d ∧
          d.metric = some mergerNewEdgeMetric ∧ d.fakeFlag = some true := by
  refine ⟨by decide, ?_, by decide, ?_⟩
  · exact (check_dest_synthesizes_edges 5 (emptyGraph.addRouter 1) [1]
      (by decide)).2.1 (fun q => rfl) 1 (by decide)
  · exact (check_dest_synthesizes_edges 5
      ((emptyGraph.addRouter 1).addFakeRoute 2 5 { metric := some 7 }) [1]
      (by decide)).1 1 (by decide)

/-! ### Contraction lemmas -/

theorem applyUpd_cons (o : Option EdgeData) (d : EdgeData)
    (ds : List EdgeData) :
    applyUpd (applyUpd o [d]) ds = applyUpd o (d :: ds) := by
  cases o <;> cases ds <;> rfl

theorem getEdge_removeNodes (g : Graph) (nb : List Nat) (u v : Nat) :
    (g.removeNodes nb).getEdge u v =
      if u ∉ nb ∧ v ∉ nb then g.getEdge u v else none := by
  show assocFind
      (g.edges.filter fun e => decide (e.1.1 ∉ nb ∧ e.1.2 ∉ nb)) (u, v) = _
  have h :=
    assocFind_filterKeys (fun k : Nat × Nat => decide (k.1 ∉ nb ∧ k.2 ∉ nb))
      g.edges (u, v)
  rw [show (fun e : (Nat × Nat) × EdgeData =>
        decide (e.1.1 ∉ nb ∧ e.1.2 ∉ nb)) =
      (fun e : (Nat × Nat) × EdgeData =>
        (fun k : Nat × Nat => decide (k.1 ∉ nb ∧ k.2 ∉ nb)) e.1) from rfl]
  rw [h]
  by_cases hc : u ∉ nb ∧ v ∉ nb <;> simp [hc, Graph.getEdge]

theorem hasNode_removeNodes_mem (g : Graph) (nb : List Nat) (m : Nat)
    (hm : m ∈ nb) : (g.removeNodes nb).hasNode m = false := by
  show (assocFind (g.nodes.filter fun p => decide (p.1 ∉ nb)) m).isSome
      = false
  have h :=
    assocFind_filterKeys (fun k : Nat => decide (k ∉ nb)) g.nodes m
  rw [show (fun p : Nat × NodeData => decide (p.1 ∉ nb)) =
      (fun p : Nat × NodeData => (fun k : Nat => decide (k ∉ nb)) p.1)
      from rfl]
  rw [h]
  simp [hm]

theorem foldContract_getEdge_ne (into : Nat) :
    ∀ (L : List ((Nat × Nat) × EdgeData)) (g : Graph) (u v : Nat),
      u ≠ into →
      (L.foldl (fun h e => h.addEdge into e.1.2 e.2) g).getEdge u v =
        g.getEdge u v := by
  intro L
  induction L with
  | nil => intro g u v _; rfl
  | cons e t ih =>
    intro g u v hu
    rw [List.foldl_cons, ih _ u v hu, getEdge_addEdge]
    have hne : (u, v) ≠ (into, e.1.2) := by
      intro he; exact hu (congrArg Prod.fst he)
    simp [hne]

theorem foldContract_getEdge_into (into : Nat) :
    ∀ (L : List ((Nat × Nat) × EdgeData)) (g : Graph) (v : Nat),
      (L.foldl (fun h e => h.addEdge into e.1.2 e.2) g).getEdge into v =
        applyUpd (g.getEdge into v)
          ((L.filter (fun e => decide (e.1.2 = v))).map (·.2)) := by
  intro L
  induction L with
  | nil => intro g v; simp [applyUpd]
  | cons e t ih =>
    intro g v
    rw [List.foldl_cons, ih]
    by_cases he : e.1.2 = v
    · subst he
      have hstep : (g.addEdge into e.1.2 e.2).getEdge into e.1.2 =
          applyUpd (g.getEdge into e.1.2) [e.2] := by
        rw [getEdge_addEdge]
        simp only [if_pos rfl]
        cases g.getEdge into e.1.2 <;> rfl
      rw [hstep, applyUpd_cons]
      simp [List.filter_cons]
    · rw [getEdge_addEdge]
      have hne : (into, v) ≠ (into, e.1.2) := by
        intro h2; exact he ((congrArg Prod.snd h2).symm)
      simp [hne, List.filter_cons, he]

/-- C8 counterexample: `contract` does not rewrite edges *into* the group —
`edges_iter(nbunch)` yields only out-edges — so an incoming edge `(1, 2)`
with `2` in the group is deleted, not redirected to `(1, 3)`. -/
theorem contract_drops_incoming_edges :
    (⟨[(1, ⟨none, none, none⟩), (2, ⟨none, none, none⟩),
          (3, ⟨none, none, none⟩)],
        [((1, 2), { metric := some 5 })]⟩ : Graph).hasEdge 1 2 = true ∧
      (Graph.contract
          ⟨[(1, ⟨none, none, none⟩), (2, ⟨none, none, none⟩),
              (3, ⟨none, none, none⟩)],
            [((1, 2), { metric := some 5 })]⟩ 3 [2]).hasEdge 1 3 = false ∧
      (Graph.contract
          ⟨[(1, ⟨none, none, none⟩), (2, ⟨none, none, none⟩),
              (3, ⟨none, none, none⟩)],
            [((1, 2), { metric := some 5 })]⟩ 3 [2]).hasEdge 1 2 = false :=
  by decide

/-- C8 (amended): `contract(into, group)` re-sources only the *outgoing*
edges of the group at `into`, merging colliding data dicts in replay order
with later occurrences overwriting shared keys (an existing `(into, v)` edge
serves as the dict being updated); it then deletes the group's nodes with
all their remaining incident edges, so edges into the group from outside
disappear.  Edges not touching the group or `into` are untouched. -/
theorem contract_characterization (g : Graph) (into : Nat)
    (nbunch : List Nat) (hin : into ∉ nbunch) :
    (∀ u v, u ∉ nbunch → u ≠ into → v ∉ nbunch →
        (g.contract into nbunch).getEdge u v = g.getEdge u v) ∧
      (∀ v, v ∉ nbunch →
          (g.contract into nbunch).getEdge into v =
            applyUpd (g.getEdge into v) (outIntoData g nbunch v)) ∧
      (∀ u m, m ∈ nbunch →
          (g.contract into nbunch).getEdge u m = none ∧
            (g.contract into nbunch).getEdge m u = none) ∧
      ∀ m ∈ nbunch, (g.contract into nbunch).hasNode m = false := by
  refine ⟨?_, ?_, ?_, ?_⟩
  · intro u v hu hui hv
    rw [Graph.contract, getEdge_removeNodes, if_pos ⟨hu, hv⟩]
    exact foldContract_getEdge_ne into _ g u v hui
  · intro v hv
    rw [Graph.contract, getEdge_removeNodes, if_pos ⟨hin, hv⟩]
    exact foldContract_getEdge_into into _ g v
  · intro u m hm
    constructor
    · rw [Graph.contract, getEdge_removeNodes,
        if_neg (fun hc => hc.2 hm)]
    · rw [Graph.contract, getEdge_removeNodes,
        if_neg (fun hc => hc.1 hm)]
  · intro m hm
    rw [Graph.contract]
    exact hasNode_removeNodes_mem _ nbunch m hm

/-- Witness for `contract_characterization`: contracting group `[2]` into
`3` re-sources the out-edge `(2, 1)` as `(3, 1)`. -/
theorem contract_characterization_witness :
    ((3 : Nat) ∉ [2]) ∧
      (Graph.contract
            ⟨[(1, ⟨none, none, none⟩), (2, ⟨none, none, none⟩)],
              [((2, 1), { metric := some 7 })]⟩ 3 [2]).getEdge 3 1 =
        applyUpd
          ((⟨[(1, ⟨none, none, none⟩), (2, ⟨none, none, none⟩)],
              [((2, 1), { metric := some 7 })]⟩ : Graph).getEdge 3 1)
          (outIntoData
            ⟨[(1, ⟨none, none, none⟩), (2, ⟨none, none, none⟩)],
              [((2, 1), { metric := some 7 })]⟩ [2] 1) := by
  refine ⟨by decide, ?_⟩
  exact (contract_characterization
      ⟨[(1, ⟨none, none, none⟩), (2, ⟨none, none, none⟩)],
        [((2, 1), { metric := some 7 })]⟩ 3 [2] (by decide)).2.1 1
    (by decide)

/-! ### LSA-emission lemmas (`create_fake_lsa`) -/

theorem createFakeLsa_eq (dagNodes : List Nat) (dest : Nat)
    (nodes : Nat → NodeV) :
    createFakeLsa dagNodes dest nodes =
      dagNodes.flatMap (cflInner dest nodes) := rfl

theorem countP_beq_nodup (l : List Nat) (h : l.Nodup) (b : Nat) :
    l.countP (fun x => x == b) = if b ∈ l then 1 else 0 := by
  induction l with
  | nil => simp
  | cons x t ih =>
    rcases List.nodup_cons.1 h with ⟨hx, ht⟩
    rw [List.countP_cons]
    by_cases hxb : x = b
    · subst hxb
      simp [ih ht, hx]
    · have hbx : ¬b = x := fun e => hxb e.symm
      simp [hxb, hbx, ih ht]

theorem cflInner_countP (dest : Nat) (nodes : Nat → NodeV) (n a b : Nat) :
    (cflInner dest nodes n).countP (fun r => r.node == a && r.nh == b) =
      if n = a then
        (if a ≠ dest ∧ b ∈ (nodes a).forced ∧ b ≠ dest then 1 else 0)
      else 0 := by
  rw [cflInner]
  by_cases hnd : n = dest
  · rw [if_pos hnd, List.countP_nil]
    by_cases hna : n = a
    · rw [if_pos hna]
      rw [if_neg ?_]
      rintro ⟨h1, -, -⟩
      exact h1 (hna ▸ hnd)
    · rw [if_neg hna]
  · rw [if_neg hnd, List.countP_map]
    by_cases hna : n = a
    · subst hna
      rw [if_pos rfl]
      have hpred :
          ((fun r : FakeLsa => r.node == n && r.nh == b) ∘ fun nh =>
              ({ node := n, nh := nh,
                 cost := if (nodes n).fake = some .globalK then
                     (nodes n).lb + 1 else -1,
                 dest := dest } : FakeLsa)) = fun nh : Nat => nh == b := by
        funext nh
        simp
      rw [hpred]
      have hnodup :
          (((nodes n).forced.sort (· ≤ ·)).filter
              (fun nh => decide (nh ≠ dest))).Nodup :=
        (Finset.sort_nodup _ _).filter _
      rw [countP_beq_nodup _ hnodup b]
      have hmem :
          b ∈ ((nodes n).forced.sort (· ≤ ·)).filter
              (fun nh => decide (nh ≠ dest)) ↔
            b ∈ (nodes n).forced ∧ b ≠ dest := by
        simp [List.mem_filter, Finset.mem_sort]
      by_cases hc : b ∈ (nodes n).forced ∧ b ≠ dest
      · rw [if_pos (hmem.2 hc), if_pos ⟨hnd, hc.1, hc.2⟩]
      · rw [if_neg (fun hm => hc (hmem.1 hm)),
          if_neg (fun hh => hc ⟨hh.2.1, hh.2.2⟩)]
    · rw [if_neg hna]
      have hpred :
          ((fun r : FakeLsa => r.node == a && r.nh == b) ∘ fun nh =>
              ({ node := n, nh := nh,
                 cost := if (nodes n).fake = some .globalK then
                     (nodes n).lb + 1 else -1,
                 dest := dest } : FakeLsa)) = fun _ : Nat => false := by
        funext nh
        simp [hna]
      rw [hpred]
      simp

theorem createFakeLsa_countP (dagNodes : List Nat) (dest : Nat)
    (nodes : Nat → NodeV) (hnd : dagNodes.Nodup) (a b : Nat) :
    (createFakeLsa dagNodes dest nodes).countP
        (fun r => r.node == a && r.nh == b) =
      if a ∈ dagNodes then
        (if a ≠ dest ∧ b ∈ (nodes a).forced ∧ b ≠ dest then 1 else 0)
      else 0 := by
  rw [createFakeLsa_eq]
  induction dagNodes with
  | nil => simp
  | cons n t ih =>
    rcases List.nodup_cons.1 hnd with ⟨hn, ht⟩
    rw [List.flatMap_cons, List.countP_append, cflInner_countP, ih ht]
    by_cases hna : n = a
    · subst hna
      rw [if_pos rfl, if_neg hn, if_pos (List.mem_cons_self n t),
        Nat.add_zero]
    · rw [if_neg hna]
      have hmem : (a ∈ n :: t) = (a ∈ t) := by
        have hban : ¬a = n := fun e => hna e.symm
        simp [List.mem_cons, hban]
      simp only [hmem, Nat.zero_add]

/-! ### Incremental destination-addition lemmas
(`__update_default_paths`) -/

theorem foldlMin_le_init : ∀ (l : List Int) (c : Int), l.foldl min c ≤ c := by
  intro l
  induction l with
  | nil => intro c; exact le_refl c
  | cons x t ih =>
    intro c
    rw [List.foldl_cons]
    exact le_trans (ih (min c x)) (min_le_left c x)

theorem foldlMin_le_mem :
    ∀ (l : List Int) (c x : Int), x ∈ l → l.foldl min c ≤ x := by
  intro l
  induction l with
  | nil => intro c x hx; cases hx
  | cons y t ih =>
    intro c x hx
    rw [List.foldl_cons]
    rcases List.mem_cons.1 hx with he | ht
    · subst he
      exact le_trans (foldlMin_le_init t (min c x)) (min_le_right c x)
    · exact ih (min c y) x ht

theorem foldlMin_attained :
    ∀ (l : List Int) (c : Int), l.foldl min c = c ∨ l.foldl min c ∈ l := by
  intro l
  induction l with
  | nil => intro c; exact Or.inl rfl
  | cons x t ih =>
    intro c
    rw [List.foldl_cons]
    rcases ih (min c x) with h | h
    · rcases min_choice c x with hc | hc
      · exact Or.inl (h.trans hc)
      · refine Or.inr ?_
        rw [h, hc]
        exact List.mem_cons_self x t
    · exact Or.inr (List.mem_cons_of_mem x h)

theorem candList_cons_none (spt : SptTables) (metric : Nat → Nat → Int)
    (dest n s : Nat) (rest : List Nat) (hd : spt.dist n s = none) :
    candList spt metric dest n (s :: rest) =
      candList spt metric dest n rest := by
  simp [candList, List.filterMap_cons, hd]

theorem candList_cons_some (spt : SptTables) (metric : Nat → Nat → Int)
    (dest n s : Nat) (rest : List Nat) (c0 : Int)
    (hd : spt.dist n s = some c0) :
    candList spt metric dest n (s :: rest) =
      (c0 + metric s dest) :: candList spt metric dest n rest := by
  simp [candList, List.filterMap_cons, hd]

theorem candidateFold_spec (spt : SptTables) (metric : Nat → Nat → Int)
    (dest n : Nat) :
    ∀ (l : List Nat) (ps : List (List Nat)) (c : Int),
      candidateFold spt metric dest n l (ps, c) =
        ((if cfMin spt metric dest n l c = c then ps else []) ++
            (l.filter (fun s =>
                decide (cfCand spt metric dest n s =
                  some (cfMin spt metric dest n l c)))).flatMap
              (fun s => cfExts spt dest n s),
          cfMin spt metric dest n l c) := by
  intro l
  induction l with
  | nil =>
    intro ps c
    simp [candidateFold, cfMin, candList]
  | cons s rest ih =>
    intro ps c
    cases hd : spt.dist n s with
    | none =>
      have hcand : cfCand spt metric dest n s = none := by
        simp [cfCand, hd]
      have hmin : cfMin spt metric dest n (s :: rest) c =
          cfMin spt metric dest n rest c := by
        rw [cfMin, candList_cons_none spt metric dest n s rest hd, cfMin]
      simp only [candidateFold, hd]
      rw [ih ps c, hmin]
      simp [List.filter_cons, hcand]
    | some c0 =>
      have hcand : cfCand spt metric dest n s = some (c0 + metric s dest) :=
        by simp [cfCand, hd]
      have hmin : cfMin spt metric dest n (s :: rest) c =
          cfMin spt metric dest n rest (min c (c0 + metric s dest)) := by
        rw [cfMin, candList_cons_some spt metric dest n s rest c0 hd,
          List.foldl_cons, cfMin]
      simp only [candidateFold, hd]
      rcases lt_trichotomy (c0 + metric s dest) c with hlt | heq | hgt
      · rw [if_pos hlt]
        rw [ih (extendPathsList ((spt.pathsT n s).getD []) dest)
          (c0 + metric s dest)]
        have hminx : min c (c0 + metric s dest) = c0 + metric s dest :=
          min_eq_right hlt.le
        rw [hmin, hminx]
        have hle : cfMin spt metric dest n rest (c0 + metric s dest) ≤
            c0 + metric s dest := foldlMin_le_init _ _
        have hnec : ¬cfMin spt metric dest n rest (c0 + metric s dest) = c
          := by
          intro he
          exact absurd (he ▸ hle) (not_le.2 hlt)
        rw [if_neg hnec]
        rw [List.filter_cons, List.nil_append]
        by_cases hx : cfMin spt metric dest n rest (c0 + metric s dest) =
            c0 + metric s dest
        · rw [if_pos hx]
          have : cfCand spt metric dest n s =
              some (cfMin spt metric dest n rest (c0 + metric s dest)) := by
            rw [hcand, hx]
          simp [this, cfExts]
        · rw [if_neg hx]
          have : ¬cfCand spt metric dest n s =
              some (cfMin spt metric dest n rest (c0 + metric s dest)) := by
            rw [hcand]
            intro he
            exact hx (Option.some.inj he).symm
          simp [this]
      · rw [if_neg (by rw [heq]; exact lt_irrefl c), if_pos heq]
        rw [ih (ps ++ extendPathsList ((spt.pathsT n s).getD []) dest) c]
        have hminc : min c (c0 + metric s dest) = c := min_eq_left heq.ge
        rw [hmin, hminc]
        rw [List.filter_cons]
        by_cases hm : cfMin spt metric dest n rest c = c
        · rw [if_pos hm]
          have hkeep : cfCand spt metric dest n s =
              some (cfMin spt metric dest n rest c) := by
            rw [hcand, hm, heq]
          simp [hkeep, hm, cfExts, List.append_assoc]
        · rw [if_neg hm]
          have hdrop : ¬cfCand spt metric dest n s =
              some (cfMin spt metric dest n rest c) := by
            rw [hcand]
            intro he
            exact hm ((Option.some.inj he).symm.trans heq)
          simp [hdrop, hm]
      · rw [if_neg (by exact fun h2 => absurd h2 (not_lt.2 hgt.le)),
          if_neg (ne_of_gt hgt)]
        rw [ih ps c]
        have hminc : min c (c0 + metric s dest) = c := min_eq_left hgt.le
        rw [hmin, hminc]
        rw [List.filter_cons]
        have hle : cfMin spt metric dest n rest c ≤ c := foldlMin_le_init _ _
        have hdrop : ¬cfCand spt metric dest n s =
            some (cfMin spt metric dest n rest c) := by
          rw [hcand]
          intro he
          have := (Option.some.inj he).symm
          exact absurd (this ▸ hle) (not_le.2 hgt)
        simp [hdrop]

theorem updCell_apply {α : Type} (t : Nat → Nat → α) (a b : Nat) (v : α)
    (x y : Nat) :
    updCell t a b v x y = if x = a ∧ y = b then v else t x y := by
  unfold updCell
  rw [Function.update_apply]
  by_cases hx : x = a
  · subst hx
    rw [if_pos rfl, Function.update_apply]
    by_cases hy : y = b
    · simp [hy]
    · simp [hy]
  · simp [hx]

theorem candidateFold_congr (metric : Nat → Nat → Int) (dest n : Nat) :
    ∀ (l : List Nat) (spt1 spt2 : SptTables),
      (∀ s ∈ l, spt1.dist n s = spt2.dist n s) →
      (∀ s ∈ l, spt1.pathsT n s = spt2.pathsT n s) →
      ∀ acc, candidateFold spt1 metric dest n l acc =
        candidateFold spt2 metric dest n l acc := by
  intro l
  induction l with
  | nil => intro spt1 spt2 _ _ acc; rfl
  | cons s rest ih =>
    intro spt1 spt2 hda hpa acc
    have hds : spt1.dist n s = spt2.dist n s :=
      hda s (List.mem_cons_self s rest)
    have hps : spt1.pathsT n s = spt2.pathsT n s :=
      hpa s (List.mem_cons_self s rest)
    have hdt : ∀ s2 ∈ rest, spt1.dist n s2 = spt2.dist n s2 :=
      fun s2 hs2 => hda s2 (List.mem_cons_of_mem s hs2)
    have hpt : ∀ s2 ∈ rest, spt1.pathsT n s2 = spt2.pathsT n s2 :=
      fun s2 hs2 => hpa s2 (List.mem_cons_of_mem s hs2)
    cases h2 : spt2.dist n s with
    | none =>
      have h1 : spt1.dist n s = none := hds.trans h2
      simp only [candidateFold, h1, h2]
      exact ih spt1 spt2 hdt hpt acc
    | some c0 =>
      have h1 : spt1.dist n s = some c0 := hds.trans h2
      simp only [candidateFold, h1, h2, hps]
      split_ifs <;> exact ih spt1 spt2 hdt hpt _

theorem udpStep_frame (metric : Nat → Nat → Int) (dest : Nat)
    (added : List Nat) (spt : SptTables) (n x y : Nat) (hy : y ≠ dest) :
    (udpStep metric dest added spt n).dist x y = spt.dist x y ∧
      (udpStep metric dest added spt n).pathsT x y = spt.pathsT x y := by
  rw [udpStep]
  split
  · exact ⟨rfl, rfl⟩
  · constructor <;>
      · show updCell _ n dest _ x y = _
        rw [updCell_apply, if_neg (fun hc => hy hc.2)]

theorem udpStep_other_row (metric : Nat → Nat → Int) (dest : Nat)
    (added : List Nat) (spt : SptTables) (n x y : Nat) (hx : x ≠ n) :
    (udpStep metric dest added spt n).dist x y = spt.dist x y ∧
      (udpStep metric dest added spt n).pathsT x y = spt.pathsT x y := by
  rw [udpStep]
  split
  · exact ⟨rfl, rfl⟩
  · constructor <;>
      · show updCell _ n dest _ x y = _
        rw [updCell_apply, if_neg (fun hc => hx hc.1)]

theorem udpFold_preserves_cell (metric : Nat → Nat → Int) (dest : Nat)
    (added : List Nat) :
    ∀ (l : List Nat) (spt : SptTables) (n : Nat), n ∉ l →
      (l.foldl (udpStep metric dest added) spt).dist n dest =
          spt.dist n dest ∧
        (l.foldl (udpStep metric dest added) spt).pathsT n dest =
          spt.pathsT n dest := by
  intro l
  induction l with
  | nil => intro spt n _; exact ⟨rfl, rfl⟩
  | cons hd rest ih =>
    intro spt n hn
    have hne : n ≠ hd := fun e => hn (e ▸ List.mem_cons_self hd rest)
    have hstep := udpStep_other_row metric dest added spt hd n dest hne
    rw [List.foldl_cons]
    have hrec := ih (udpStep metric dest added spt hd) n
      (fun hm => hn (List.mem_cons_of_mem hd hm))
    exact ⟨hrec.1.trans hstep.1, hrec.2.trans hstep.2⟩

theorem udpFold_sets_row (metric : Nat → Nat → Int) (dest : Nat)
    (added : List Nat) (spt0 : SptTables) (hda : dest ∉ added) :
    ∀ (l : List Nat) (spt : SptTables) (n : Nat), l.Nodup → n ∈ l →
      (∀ y, y ≠ dest → spt.dist n y = spt0.dist n y) →
      (∀ y, y ≠ dest → spt.pathsT n y = spt0.pathsT n y) →
      (rowResult spt0 metric dest n added).1 ≠ [] →
      (l.foldl (udpStep metric dest added) spt).dist n dest =
          some (rowResult spt0 metric dest n added).2 ∧
        (l.foldl (udpStep metric dest added) spt).pathsT n dest =
          some (rowResult spt0 metric dest n added).1 := by
  intro l
  induction l with
  | nil => intro spt n _ hn; cases hn
  | cons hd rest ih =>
    intro spt n hnd hn hagd hagp hne
    rcases List.nodup_cons.1 hnd with ⟨hhd, hrest⟩
    rw [List.foldl_cons]
    rcases List.mem_cons.1 hn with he | ht
    · subst he
      have hcf : candidateFold spt metric dest n added ([], pyMaxInt) =
          rowResult spt0 metric dest n added := by
        rw [rowResult]
        refine candidateFold_congr metric dest n added spt spt0 ?_ ?_ _
        · intro s hs
          exact hagd s (fun e => hda (e ▸ hs))
        · intro s hs
          exact hagp s (fun e => hda (e ▸ hs))
      have hstep : (udpStep metric dest added spt n).dist n dest =
            some (rowResult spt0 metric dest n added).2 ∧
          (udpStep metric dest added spt n).pathsT n dest =
            some (rowResult spt0 metric dest n added).1 := by
        rw [udpStep]
        simp only [hcf]
        rw [if_neg hne]
        constructor <;>
          · show updCell _ n dest _ n dest = _
            rw [updCell_apply, if_pos ⟨rfl, rfl⟩]
      have hkeep := udpFold_preserves_cell metric dest added rest
        (udpStep metric dest added spt n) n hhd
      exact ⟨hkeep.1.trans hstep.1, hkeep.2.trans hstep.2⟩
    · have hstep := fun y hy =>
        udpStep_frame metric dest added spt hd n y hy
      exact ih (udpStep metric dest added spt hd) n hrest ht
        (fun y hy => ((hstep y hy).1).trans (hagd y hy))
        (fun y hy => ((hstep y hy).2).trans (hagp y hy)) hne

/-- C6: after the incremental destination addition
(`__update_default_paths`), every router `n` with a stored path to at least
one added sink gets `dist(n, dest) = min over s of dist(n,s) +
metric(s,dest)` and exactly the pre-existing paths to minimizing sinks
extended with `dest`. -/
theorem update_default_paths_spec (routers : List Nat)
    (metric : Nat → Nat → Int) (dest : Nat) (added : List Nat)
    (spt0 : SptTables) (hnd : routers.Nodup) (hdr : dest ∉ routers)
    (hda : dest ∉ added) (n : Nat) (hn : n ∈ routers)
    (hal : ∀ sA ∈ added, (spt0.dist n sA).isSome →
        (spt0.pathsT n sA).isSome ∧ (spt0.pathsT n sA).getD [] ≠ [])
    (hb : ∀ x ∈ candList spt0 metric dest n added, x < pyMaxInt)
    (hex : ∃ sA ∈ added, (spt0.dist n sA).isSome) :
    ∃ m ps,
      (updateDefaultPaths routers metric dest added spt0).dist n dest =
          some m ∧
        (updateDefaultPaths routers metric dest added spt0).pathsT n dest =
          some ps ∧
        m ∈ candList spt0 metric dest n added ∧
        (∀ x ∈ candList spt0 metric dest n added, m ≤ x) ∧
        ∀ p, p ∈ ps ↔ ∃ sA ∈ added,
          (spt0.dist n sA).map (fun c => c + metric sA dest) = some m ∧
          ∃ q ∈ (spt0.pathsT n sA).getD [], p = q ++ [dest] := by
  have hle : ∀ x ∈ candList spt0 metric dest n added,
      cfMin spt0 metric dest n added pyMaxInt ≤ x :=
    fun x hx => foldlMin_le_mem _ _ x hx
  have hmem_m : cfMin spt0 metric dest n added pyMaxInt ∈
      candList spt0 metric dest n added := by
    rcases foldlMin_attained (candList spt0 metric dest n added) pyMaxInt
      with h | h
    · exfalso
      rcases hex with ⟨sA, hsA, hsome⟩
      rcases Option.isSome_iff_exists.1 hsome with ⟨c0, hc0⟩
      have hx : c0 + metric sA dest ∈ candList spt0 metric dest n added :=
        List.mem_filterMap.2 ⟨sA, hsA, by rw [hc0]; rfl⟩
      have h1 := hle _ hx
      have h2 : cfMin spt0 metric dest n added pyMaxInt = pyMaxInt := h
      rw [h2] at h1
      exact absurd (lt_of_le_of_lt h1 (hb _ hx)) (lt_irrefl _)
    · exact h
  have hrr : rowResult spt0 metric dest n added =
      ((added.filter (fun s =>
          decide (cfCand spt0 metric dest n s =
            some (cfMin spt0 metric dest n added pyMaxInt)))).flatMap
        (fun s => cfExts spt0 dest n s),
       cfMin spt0 metric dest n added pyMaxInt) := by
    rw [rowResult, candidateFold_spec]
    simp [ite_self]
  have hminC : ∃ sA ∈ added,
      cfCand spt0 metric dest n sA =
        some (cfMin spt0 metric dest n added pyMaxInt) := by
    rcases List.mem_filterMap.1 hmem_m with ⟨sA, hsA, hfa⟩
    exact ⟨sA, hsA, hfa⟩
  have hne : (rowResult spt0 metric dest n added).1 ≠ [] := by
    rw [hrr]
    rcases hminC with ⟨sA, hsA, hc⟩
    have hds : (spt0.dist n sA).isSome := by
      cases hdist : spt0.dist n sA
      · rw [cfCand, hdist] at hc
        cases hc
      · rfl
    rcases hal sA hsA hds with ⟨-, hqne⟩
    rcases List.exists_mem_of_ne_nil _ hqne with ⟨q, hq⟩
    refine List.ne_nil_of_mem (a := q ++ [dest]) ?_
    refine List.mem_flatMap.2 ⟨sA,
      List.mem_filter.2 ⟨hsA, decide_eq_true hc⟩, ?_⟩
    rw [cfExts, extendPathsList]
    exact List.mem_map.2 ⟨q, hq, rfl⟩
  have hndest : n ≠ dest := fun e => hdr (e ▸ hn)
  have hrow := udpFold_sets_row metric dest added spt0 hda routers
    ({ dist :=
        Function.update spt0.dist dest
          (fun y => if y = dest then some 0 else none),
       pathsT :=
        Function.update spt0.pathsT dest
          (fun y => if y = dest then some [[dest]] else none) } :
      SptTables) n hnd hn
    (fun y _ => by
      show Function.update spt0.dist dest _ n y = spt0.dist n y
      rw [Function.update_noteq hndest])
    (fun y _ => by
      show Function.update spt0.pathsT dest _ n y = spt0.pathsT n y
      rw [Function.update_noteq hndest]) hne
  have hupd : updateDefaultPaths routers metric dest added spt0 =
      routers.foldl (udpStep metric dest added)
        ({ dist :=
            Function.update spt0.dist dest
              (fun y => if y = dest then some 0 else none),
           pathsT :=
            Function.update spt0.pathsT dest
              (fun y => if y = dest then some [[dest]] else none) } :
          SptTables) := rfl
  refine ⟨cfMin spt0 metric dest n added pyMaxInt,
    (added.filter (fun s =>
        decide (cfCand spt0 metric dest n s =
          some (cfMin spt0 metric dest n added pyMaxInt)))).flatMap
      (fun s => cfExts spt0 dest n s), ?_, ?_, hmem_m, hle, ?_⟩
  · rw [hupd, hrow.1, hrr]
  · rw [hupd, hrow.2, hrr]
  · intro p
    constructor
    · intro hp
      rcases List.mem_flatMap.1 hp with ⟨sA, hsf, hpe⟩
      rcases List.mem_filter.1 hsf with ⟨hsa, hdec⟩
      have hc : cfCand spt0 metric dest n sA =
          some (cfMin spt0 metric dest n added pyMaxInt) :=
        of_decide_eq_true hdec
      rw [cfExts, extendPathsList] at hpe
      rcases List.mem_map.1 hpe with ⟨q, hq, hpq⟩
      exact ⟨sA, hsa, hc, q, hq, hpq.symm⟩
    · rintro ⟨sA, hsa, hc, q, hq, hpq⟩
      refine List.mem_flatMap.2 ⟨sA,
        List.mem_filter.2 ⟨hsa, decide_eq_true hc⟩, ?_⟩
      rw [cfExts, extendPathsList]
      exact List.mem_map.2 ⟨q, hq, hpq.symm⟩

/-- Witness for `update_default_paths_spec`: router 2 reaches the single
added sink 5 (cost 4, path `[2, 5]`), the new destination is 9 with
`metric(5, 9) = 3`. -/
theorem update_default_paths_spec_witness :
    ∃ m ps,
      (updateDefaultPaths [2] (fun _ _ => 3) 9 [5] wSpt).dist 2 9 = some m ∧
        (updateDefaultPaths [2] (fun _ _ => 3) 9 [5] wSpt).pathsT 2 9 =
          some ps ∧
        m ∈ candList wSpt (fun _ _ => 3) 9 2 [5] ∧
        (∀ x ∈ candList wSpt (fun _ _ => 3) 9 2 [5], m ≤ x) ∧
        ∀ p, p ∈ ps ↔ ∃ sA ∈ [5],
          (wSpt.dist 2 sA).map (fun c => c + (fun _ _ => (3 : Int)) sA 9) =
            some m ∧
          ∃ q ∈ (wSpt.pathsT 2 sA).getD [], p = q ++ [9] := by
  refine update_default_paths_spec [2] (fun _ _ => 3) 9 [5] wSpt
    (by decide) (by decide) (by decide) 2 (by decide) (by decide)
    (by decide) (by decide)

/-! ### Solver-state lemmas (`apply_merge` undo-log correctness) -/

theorem nodes_setNode_apply (s : MState) (n : Nat) (v : NodeV) (m : Nat) :
    (s.setNode n v).nodes m = if m = n then v else s.nodes m := by
  rw [MState.setNode]
  exact Function.update_apply s.nodes n v m

theorem ecmp_setNode (s : MState) (n : Nat) (v : NodeV) :
    (s.setNode n v).ecmp = s.ecmp := rfl

theorem setNode_setNode (s : MState) (n : Nat) (v w : NodeV) :
    (s.setNode n v).setNode n w = s.setNode n w := by
  rw [MState.setNode, MState.setNode, MState.setNode]
  congr 1
  exact Function.update_idem v w s.nodes

theorem setNode_restore (s : MState) (n : Nat) (w : NodeV) :
    (s.setNode n w).setNode n (s.nodes n) = s := by
  rw [setNode_setNode, MState.setNode, Function.update_eq_self]

theorem nodes_setNode_same (s : MState) (n : Nat) (v : NodeV) :
    (s.setNode n v).nodes n = v := by
  rw [nodes_setNode_apply, if_pos rfl]

theorem nodes_setLb_apply (st : MState) (n : Nat) (x : Int) (m : Nat) :
    (setLb st n x).nodes m =
      if m = n then { st.nodes n with lb := x } else st.nodes m := by
  rw [setLb, nodes_setNode_apply]

theorem nodes_setUb_apply (st : MState) (n : Nat) (x : Int) (m : Nat) :
    (setUb st n x).nodes m =
      if m = n then { st.nodes n with ub := x } else st.nodes m := by
  rw [setUb, nodes_setNode_apply]

theorem nodes_eraseForced_apply (st : MState) (n nh m : Nat) :
    (eraseForced st n nh).nodes m =
      if m = n then { st.nodes n with forced := (st.nodes n).forced.erase nh }
      else st.nodes m := by
  rw [eraseForced, nodes_setNode_apply]

theorem setLb_after_setLb (s : MState) (n : Nat) (x : Int) :
    setLb (setLb s n x) n ((s.nodes n).lb) = s := by
  unfold setLb
  rw [nodes_setNode_same]
  have h2 : ({ { s.nodes n with lb := x } with lb := (s.nodes n).lb } :
      NodeV) = s.nodes n := rfl
  rw [h2]
  exact setNode_restore s n _

theorem setUb_after_setUb (s : MState) (n : Nat) (x : Int) :
    setUb (setUb s n x) n ((s.nodes n).ub) = s := by
  unfold setUb
  rw [nodes_setNode_same]
  have h2 : ({ { s.nodes n with ub := x } with ub := (s.nodes n).ub } :
      NodeV) = s.nodes n := rfl
  rw [h2]
  exact setNode_restore s n _

theorem insertForced_after_eraseForced (s : MState) (n nh : Nat)
    (h : nh ∈ (s.nodes n).forced) :
    insertForced (eraseForced s n nh) n nh = s := by
  rw [eraseForced, insertForced]
  rw [nodes_setNode_same]
  have h2 : ({ { s.nodes n with forced := (s.nodes n).forced.erase nh } with
      forced := insert nh ((s.nodes n).forced.erase nh) } : NodeV) =
      { s.nodes n with forced := insert nh ((s.nodes n).forced.erase nh) }
    := rfl
  rw [h2, Finset.insert_erase h]
  exact setNode_restore s n _

theorem setFake_after_removeFakeNode (s : MState) (n : Nat)
    (hf : (s.nodes n).forced = ∅) :
    setFake (removeFakeNode s n) n ((s.nodes n).fake) = s := by
  rw [removeFakeNode, setFake]
  rw [nodes_setNode_same]
  have h2 : ({ { s.nodes n with fake := none, forced := ∅ } with
      fake := (s.nodes n).fake } : NodeV) =
      { s.nodes n with forced := ∅ } := rfl
  rw [h2, ← hf]
  exact setNode_restore s n _

theorem ecmp_setEcmp_apply (s : MState) (a : Nat) (es : Finset Nat)
    (b : Nat) :
    (s.setEcmp a es).ecmp b = if b = a then es else s.ecmp b := by
  rw [MState.setEcmp]
  exact Function.update_apply s.ecmp a es b

theorem setEcmp_setEcmp (s : MState) (a : Nat) (v w : Finset Nat) :
    (s.setEcmp a v).setEcmp a w = s.setEcmp a w := by
  unfold MState.setEcmp
  simp [Function.update_idem]

theorem setEcmp_restore (s : MState) (a : Nat) (w : Finset Nat) :
    (s.setEcmp a w).setEcmp a (s.ecmp a) = s := by
  rw [setEcmp_setEcmp, MState.setEcmp, Function.update_eq_self]

theorem ecmp_ecmpInsert_apply (s : MState) (a x b : Nat) :
    (ecmpInsert s a x).ecmp b =
      if b = a then insert x (s.ecmp a) else s.ecmp b := by
  rw [ecmpInsert]
  exact ecmp_setEcmp_apply s a _ b

theorem ecmp_ecmpErase_apply (s : MState) (a x b : Nat) :
    (ecmpErase s a x).ecmp b =
      if b = a then (s.ecmp a).erase x else s.ecmp b := by
  rw [ecmpErase]
  exact ecmp_setEcmp_apply s a _ b

theorem ecmpInsert_after_ecmpErase (s : MState) (a x : Nat)
    (h : x ∈ s.ecmp a) : ecmpInsert (ecmpErase s a x) a x = s := by
  rw [ecmpErase, ecmpInsert]
  rw [show (s.setEcmp a ((s.ecmp a).erase x)).ecmp a =
      (s.ecmp a).erase x from by rw [ecmp_setEcmp_apply, if_pos rfl]]
  rw [setEcmp_setEcmp, Finset.insert_erase h]
  rw [show s.setEcmp a (s.ecmp a) = s from setEcmp_restore s a (s.ecmp a) ▸
    by rw [MState.setEcmp, Function.update_eq_self]]

theorem ecmpErase_after_ecmpInsert (s : MState) (a x : Nat)
    (h : x ∉ s.ecmp a) : ecmpErase (ecmpInsert s a x) a x = s := by
  rw [ecmpInsert, ecmpErase]
  rw [show (s.setEcmp a (insert x (s.ecmp a))).ecmp a =
      insert x (s.ecmp a) from by rw [ecmp_setEcmp_apply, if_pos rfl]]
  rw [setEcmp_setEcmp, Finset.erase_insert h]
  rw [MState.setEcmp, Function.update_eq_self]

theorem nodes_ecmpInsert (s : MState) (a x : Nat) :
    (ecmpInsert s a x).nodes = s.nodes := rfl

theorem nodes_ecmpErase (s : MState) (a x : Nat) :
    (ecmpErase s a x).nodes = s.nodes := rfl

theorem ecmp_setLb (s : MState) (n : Nat) (x : Int) :
    (setLb s n x).ecmp = s.ecmp := rfl

theorem ecmp_setUb (s : MState) (n : Nat) (x : Int) :
    (setUb s n x).ecmp = s.ecmp := rfl

/-! ### Undo-log invariant -/

/-- The recorded undo closures replay the current state back to `s0`. -/
def Inv (s0 : MState) (ml : MLog) : Prop := runUndos ml.undos ml.st = s0

theorem inv_init (s0 : MState) : Inv s0 ⟨s0, []⟩ := rfl

theorem inv_recMut {s0 : MState} {ml : MLog} {f u : MState → MState}
    (hInv : Inv s0 ml) (h : u (f ml.st) = ml.st) :
    Inv s0 (recMut f u ml) := by
  show runUndos (u :: ml.undos) (f ml.st) = s0
  show (u :: ml.undos).foldl (fun s f => f s) (f ml.st) = s0
  rw [List.foldl_cons]
  show runUndos ml.undos (u (f ml.st)) = s0
  rw [h]
  exact hInv

theorem inv_rollback {s0 : MState} {ml : MLog} (h : Inv s0 ml) :
    ml.rollback = s0 := h

theorem inv_pAssign {s0 : MState} (ml : MLog) (n : Nat) (d : Int)
    (h : Inv s0 ml) : Inv s0 (pAssign n d ml) := by
  unfold pAssign
  exact inv_recMut h (setLb_after_setLb ml.st n _)

theorem propEcmpLoop_inv (ctx : SolverCtx) (gas : Nat) (lbDiff : Int)
    (nName : Nat) (s0 : MState) :
    ∀ (l : List Nat) (pq : List (Int × Nat)) (ml : MLog)
      (r : List (Int × Nat) × MLog × Bool), Inv s0 ml →
      propEcmpLoop ctx gas lbDiff nName l pq ml = r → Inv s0 r.2.1 := by
  intro l
  induction l with
  | nil =>
    intro pq ml r h he
    rw [← he]
    exact h
  | cons e rest ih =>
    intro pq ml r h he
    simp only [propEcmpLoop] at he
    split at he
    · exact ih pq ml r h he
    · split at he
      · exact ih _ _ r (inv_pAssign ml e lbDiff h) he
      · rw [← he]
        exact h

theorem propNeighbors_inv (ctx : SolverCtx) (gas : Nat) (fixedN : List Nat)
    (nodeName : Nat) (s0 : MState) :
    ∀ (l : List Nat) (pq : List (Int × Nat)) (updates : Finset (Nat × Nat))
      (ml : MLog)
      (r : Sum (List (Int × Nat) × Finset (Nat × Nat) × MLog) MLog),
      Inv s0 ml →
      propNeighbors ctx gas fixedN nodeName l pq updates ml = r →
      Inv s0 (sumMLog r) := by
  intro l
  induction l with
  | nil =>
    intro pq updates ml r h he
    rw [← he]
    exact h
  | cons n rest ih =>
    intro pq updates ml r h he
    simp only [propNeighbors] at he
    split at he
    · split at he
      · rw [← he]
        exact h
      · split at he
        · split at he
          · rename_i heq
            exact ih _ _ _ r
              (propEcmpLoop_inv ctx gas _ n s0 _ _ _ _
                (inv_pAssign ml n _ h) heq) he
          · rename_i heq
            rw [← he]
            exact propEcmpLoop_inv ctx gas _ n s0 _ _ _ _
              (inv_pAssign ml n _ h) heq
        · rw [← he]
          exact h
    · exact ih _ _ _ r h he

theorem propLoop_inv (ctx : SolverCtx) (gas : Nat) (s0 : MState) :
    ∀ (fuel : Nat) (pq : List (Int × Nat)) (updates : Finset (Nat × Nat))
      (ml : MLog) (r : MLog × Bool), Inv s0 ml →
      propLoop ctx gas fuel pq updates ml = r → Inv s0 r.1 := by
  intro fuel
  induction fuel with
  | zero =>
    intro pq updates ml r h he
    simp only [propLoop] at he
    rw [← he]
    exact h
  | succ fuel ih =>
    intro pq updates ml r h he
    simp only [propLoop] at he
    split at he
    · rw [← he]
      exact h
    · split at he
      · exact ih _ _ _ r h he
      · split at he
        · rename_i heq
          exact ih _ _ _ r
            (propNeighbors_inv ctx gas _ _ s0 _ _ _ _ _ h heq) he
        · rename_i heq
          rw [← he]
          exact propNeighbors_inv ctx gas _ _ s0 _ _ _ _ _ h heq

theorem propagateLbMerge_inv (ctx : SolverCtx) (gas fuel : Nat)
    (initialNodes : List Nat) (ml : MLog) (s0 : MState) (r : MLog × Bool)
    (h : Inv s0 ml) (he : propagateLbMerge ctx gas fuel initialNodes ml = r) :
    Inv s0 r.1 :=
  propLoop_inv ctx gas s0 fuel _ ∅ ml r h he

theorem inv_melStepA {s0 : MState} (nName e : Nat) (removeN : Bool)
    (ml : MLog) (h : Inv s0 ml)
    (hm : removeN = true → nName ∈ ml.st.ecmp e) :
    Inv s0 (melStepA nName e removeN ml) := by
  unfold melStepA
  cases removeN
  · exact h
  · exact inv_recMut h (ecmpInsert_after_ecmpErase ml.st e nName (hm rfl))

theorem mem_melStepA {x e' : Nat} (nName e : Nat) (removeN : Bool)
    (ml : MLog) (hne : e' ≠ e) (h : x ∈ ml.st.ecmp e') :
    x ∈ (melStepA nName e removeN ml).st.ecmp e' := by
  unfold melStepA
  cases removeN
  · exact h
  · show x ∈ (ecmpErase ml.st e nName).ecmp e'
    rw [ecmp_ecmpErase_apply, if_neg hne]
    exact h

theorem inv_melStepB {s0 : MState} (sName e : Nat) (ml : MLog)
    (h : Inv s0 ml) : Inv s0 (melStepB sName e ml) := by
  unfold melStepB
  split
  · exact h
  · rename_i hn
    exact inv_recMut h (ecmpErase_after_ecmpInsert ml.st sName e hn)

theorem mem_melStepB {x e' : Nat} (sName e : Nat) (ml : MLog)
    (h : x ∈ ml.st.ecmp e') : x ∈ (melStepB sName e ml).st.ecmp e' := by
  unfold melStepB
  split
  · exact h
  · show x ∈ (ecmpInsert ml.st sName e).ecmp e'
    rw [ecmp_ecmpInsert_apply]
    split
    · rename_i h2
      exact Finset.mem_insert_of_mem (h2 ▸ h)
    · exact h

theorem inv_melStepC {s0 : MState} (sName e : Nat) (ml : MLog)
    (h : Inv s0 ml) : Inv s0 (melStepC sName e ml) := by
  unfold melStepC
  split
  · exact h
  · rename_i hn
    exact inv_recMut h (ecmpErase_after_ecmpInsert ml.st e sName hn)

theorem mem_melStepC {x e' : Nat} (sName e : Nat) (ml : MLog)
    (h : x ∈ ml.st.ecmp e') : x ∈ (melStepC sName e ml).st.ecmp e' := by
  unfold melStepC
  split
  · exact h
  · show x ∈ (ecmpInsert ml.st e sName).ecmp e'
    rw [ecmp_ecmpInsert_apply]
    split
    · rename_i h2
      exact Finset.mem_insert_of_mem (h2 ▸ h)
    · exact h

theorem mergeEcmpLoop_inv (ctx : SolverCtx) (nName sName : Nat) (pci : Int)
    (removeN : Bool) (s0 : MState) :
    ∀ (l : List Nat) (ml : MLog) (r : Sum MLog MLog), l.Nodup →
      Inv s0 ml → (removeN = true → ∀ e ∈ l, nName ∈ ml.st.ecmp e) →
      mergeEcmpLoop ctx nName sName pci removeN l ml = r →
      Inv s0 (sumMLog2 r) := by
  intro l
  induction l with
  | nil =>
    intro ml r _ h _ he
    rw [← he]
    exact h
  | cons e rest ih =>
    intro ml r hnd h hmem he
    simp only [mergeEcmpLoop] at he
    have hnd1 : rest.Nodup := (List.nodup_cons.mp hnd).2
    have hnotmem : e ∉ rest := (List.nodup_cons.mp hnd).1
    have h1 : Inv s0 (melStepA nName e removeN ml) :=
      inv_melStepA nName e removeN ml h
        (fun hr => hmem hr e (List.mem_cons_self e rest))
    have hmem1 : removeN = true →
        ∀ x ∈ rest, nName ∈ (melStepA nName e removeN ml).st.ecmp x :=
      fun hr x hx =>
        mem_melStepA nName e removeN ml (fun hxe => hnotmem (hxe ▸ hx))
          (hmem hr x (List.mem_cons_of_mem e hx))
    split at he
    · exact ih _ r hnd1 h1 hmem1 he
    · have h3 :
          Inv s0
            (melStepC sName e (melStepB sName e (melStepA nName e removeN
              ml))) :=
        inv_melStepC sName e _ (inv_melStepB sName e _ h1)

      have hmem3 : removeN = true → ∀ x ∈ rest,
          nName ∈ (melStepC sName e (melStepB sName e (melStepA nName e
            removeN ml))).st.ecmp x :=
        fun hr x hx =>
          mem_melStepC sName e _ (mem_melStepB sName e _ (hmem1 hr x hx))
      split at he
      · refine ih _ r hnd1 ?_ ?_ he
        · exact inv_recMut h3 (setLb_after_setLb _ e _)
        · intro hr x hx
          exact hmem3 hr x hx
      · rw [← he]
        exact h3

theorem ub_setLb (st : MState) (k : Nat) (x : Int) (m : Nat) :
    ((setLb st k x).nodes m).ub = (st.nodes m).ub := by
  rw [nodes_setLb_apply]
  split
  · rename_i h
    rw [h]
  · rfl

theorem fake_setLb (st : MState) (k : Nat) (x : Int) (m : Nat) :
    ((setLb st k x).nodes m).fake = (st.nodes m).fake := by
  rw [nodes_setLb_apply]
  split
  · rename_i h
    rw [h]
  · rfl

theorem fake_setUb (st : MState) (k : Nat) (x : Int) (m : Nat) :
    ((setUb st k x).nodes m).fake = (st.nodes m).fake := by
  rw [nodes_setUb_apply]
  split
  · rename_i h
    rw [h]
  · rfl

theorem fake_eraseForced (st : MState) (k nh : Nat) (m : Nat) :
    ((eraseForced st k nh).nodes m).fake = (st.nodes m).fake := by
  rw [nodes_eraseForced_apply]
  split
  · rename_i h
    rw [h]
  · rfl

theorem amSetup_inv (s0 : MState) (n s : Nat) (lb ub : Int) (nh : Nat)
    (h2 : nh ∈ (s0.nodes n).forced) : Inv s0 (amSetup s0 n s lb ub nh) := by
  unfold amSetup
  refine inv_recMut (inv_recMut (inv_recMut (inv_init s0) ?hA) ?hB) ?hC
  case hA => exact insertForced_after_eraseForced s0 n nh h2
  case hB => exact setLb_after_setLb _ s lb
  case hC =>
    have e1 : ((setLb (eraseForced s0 n nh) s lb).nodes s).ub =
        ((eraseForced s0 n nh).nodes s).ub := ub_setLb _ s lb s
    show setUb (setUb (setLb (eraseForced s0 n nh) s lb) s ub) s
        ((eraseForced s0 n nh).nodes s).ub =
      setLb (eraseForced s0 n nh) s lb
    rw [← e1]
    exact setUb_after_setUb _ s ub

theorem fake_amSetup (s0 : MState) (n s : Nat) (lb ub : Int) (nh : Nat) :
    ((amSetup s0 n s lb ub nh).st.nodes n).fake = (s0.nodes n).fake := by
  show ((setUb (setLb (eraseForced s0 n nh) s lb) s ub).nodes n).fake =
    (s0.nodes n).fake
  rw [fake_setUb, fake_setLb, fake_eraseForced]

theorem inv_removeStage {s0 : MState} (ml3 : MLog) (n : Nat)
    (h : Inv s0 ml3) (hg : (ml3.st.nodes n).fake = some FakeKind.globalK) :
    Inv s0
      (if (!hasFakeNode (ml3.st.nodes n) (some FakeKind.globalK)) = true
        then
          recMut (fun st => removeFakeNode st n)
            (fun st => setFake st n ((ml3.st.nodes n).fake)) ml3
        else ml3) := by
  split
  · rename_i hc
    have hf : hasFakeNode (ml3.st.nodes n) (some FakeKind.globalK) = false :=
      by
      cases hfk : hasFakeNode (ml3.st.nodes n) (some FakeKind.globalK)
      · rfl
      · rw [hfk] at hc
        exact absurd hc (by simp)
    have hforced : (ml3.st.nodes n).forced = ∅ := by
      unfold hasFakeNode at hf
      rw [hg] at hf
      simp only [Bool.and_eq_false_imp, decide_eq_true_eq] at hf
      by_cases hne : (ml3.st.nodes n).forced.Nonempty
      · exact absurd (hf hne) (by simp)
      · exact Finset.not_nonempty_iff_eq_empty.mp hne
    exact inv_recMut h (setFake_after_removeFakeNode ml3.st n hforced)
  · exact h

theorem mem_removeStage (ml3 : MLog) (n x e : Nat)
    (h : x ∈ ml3.st.ecmp e) :
    x ∈
      ((if (!hasFakeNode (ml3.st.nodes n) (some FakeKind.globalK)) = true
        then
          recMut (fun st => removeFakeNode st n)
            (fun st => setFake st n ((ml3.st.nodes n).fake)) ml3
        else ml3).st.ecmp e) := by
  split
  · exact h
  · exact h

/-- C2: after solving one destination, the emitted list has exactly one
record per pair `(n, nh)` with `n` a non-destination router carrying `nh` in
its forced-next-hop set and `nh ≠ dest`; each record carries cost `lb + 1`
for a global fake node and `-1` otherwise, and the destination.  The
coverage hypothesis reflects the solve invariant that routers with forced
next-hops are DAG nodes (`forced_nhs = dag.successors`). -/
theorem create_fake_lsa_exact (dagNodes : List Nat) (dest : Nat)
    (nodes : Nat → NodeV) (hnd : dagNodes.Nodup)
    (hcov : ∀ m, ((nodes m).forced).Nonempty → m ∈ dagNodes) :
    (∀ a b,
        (createFakeLsa dagNodes dest nodes).countP
            (fun r => r.node == a && r.nh == b) =
          if a ≠ dest ∧ b ∈ (nodes a).forced ∧ b ≠ dest then 1 else 0) ∧
      ∀ r ∈ createFakeLsa dagNodes dest nodes,
        r.dest = dest ∧ r.node ≠ dest ∧ r.nh ∈ (nodes r.node).forced ∧
          r.nh ≠ dest ∧
          r.cost =
            (if (nodes r.node).fake = some FakeKind.globalK then
              (nodes r.node).lb + 1 else -1) := by
  constructor
  · intro a b
    rw [createFakeLsa_countP dagNodes dest nodes hnd a b]
    by_cases hc : a ≠ dest ∧ b ∈ (nodes a).forced ∧ b ≠ dest
    · rw [if_pos (hcov a ⟨b, hc.2.1⟩)]
    · rw [if_neg hc]
      simp
  · intro r hr
    rw [createFakeLsa_eq] at hr
    rcases List.mem_flatMap.1 hr with ⟨n, hn, hrn⟩
    rw [cflInner] at hrn
    by_cases hnd2 : n = dest
    · rw [if_pos hnd2] at hrn
      cases hrn
    · rw [if_neg hnd2] at hrn
      rcases List.mem_map.1 hrn with ⟨nh, hnh, hre⟩
      rcases List.mem_filter.1 hnh with ⟨hsort, hdec⟩
      have hforced : nh ∈ (nodes n).forced := (Finset.mem_sort _).1 hsort
      have hnhd : nh ≠ dest := of_decide_eq_true hdec
      subst hre
      exact ⟨rfl, hnd2, hforced, hnhd, rfl⟩

/-- Witness for `create_fake_lsa_exact` on a two-node DAG where router 0
forces next-hop 2 towards destination 1. -/
theorem create_fake_lsa_exact_witness :
    (createFakeLsa [0, 1] 1 wNodes).countP
        (fun r => r.node == 0 && r.nh == 2) =
      if (0 : Nat) ≠ 1 ∧ 2 ∈ (wNodes 0).forced ∧ (2 : Nat) ≠ 1 then 1
      else 0 := by
  refine (create_fake_lsa_exact [0, 1] 1 wNodes (by decide) ?_).1 0 2
  intro m hm
  by_cases h : m = 0
  · simp [h]
  · exfalso
    rw [wNodes] at hm
    rw [if_neg h] at hm
    exact Finset.not_nonempty_empty hm

/-- Keys present before an `add_lsa` remain present afterwards. -/
theorem addLsa_preserves_found (st : Store) (la : Lsa) (k : LKey) (l : Lsa)
    (h : st.findKey k = some l) :
    ∃ l2, (st.addLsa la).findKey k = some l2 := by
  cases la <;> cases k <;>
    simp only [Store.addLsa, Store.findKey, assocFind_assocPut] at * <;>
    first
      | exact ⟨l, h⟩
      | (split <;> first | exact ⟨_, rfl⟩ | exact ⟨l, h⟩)

/-- A `remove_lsa` that makes a present key disappear removed exactly its
own key. -/
theorem removeLsa_deletes_only_own_key (st : Store) (lr : Lsa) (k : LKey)
    (l : Lsa) (hs : st.findKey k = some l)
    (hn : (st.removeLsa lr).findKey k = none) : lr.key = some k := by
  cases lr with
  | router rid s a links =>
    cases k with
    | routerK r =>
      by_cases hr : r = rid
      · simp [Lsa.key, hr]
      · rw [Store.removeLsa] at hn
        simp only [Store.findKey] at hn hs
        rw [assocFind_assocDel_ne _ _ _ hr] at hn
        rw [hs] at hn
        cases hn
    | networkK d => rw [Store.removeLsa] at hn; simp only [Store.findKey] at hn hs; rw [hs] at hn; cases hn
    | extK r p => rw [Store.removeLsa] at hn; simp only [Store.findKey] at hn hs; rw [hs] at hn; cases hn
  | network dr s a att =>
    cases k with
    | networkK d =>
      by_cases hr : d = dr
      · simp [Lsa.key, hr]
      · rw [Store.removeLsa] at hn
        simp only [Store.findKey] at hn hs
        rw [assocFind_assocDel_ne _ _ _ hr] at hn
        rw [hs] at hn
        cases hn
    | routerK r => rw [Store.removeLsa] at hn; simp only [Store.findKey] at hn hs; rw [hs] at hn; cases hn
    | extK r p => rw [Store.removeLsa] at hn; simp only [Store.findKey] at hn hs; rw [hs] at hn; cases hn
  | asext rid pfx s a routes =>
    cases k with
    | extK r p =>
      by_cases hr : (r, p) = (rid, pfx)
      · have h1 : r = rid := congrArg Prod.fst hr
        have h2 : p = pfx := congrArg Prod.snd hr
        simp [Lsa.key, h1, h2]
      · rw [Store.removeLsa] at hn
        simp only [Store.findKey] at hn hs
        rw [assocFind_assocDel_ne _ _ _ hr] at hn
        rw [hs] at hn
        cases hn
    | routerK r => rw [Store.removeLsa] at hn; simp only [Store.findKey] at hn hs; rw [hs] at hn; cases hn
    | networkK d => rw [Store.removeLsa] at hn; simp only [Store.findKey] at hn hs; rw [hs] at hn; cases hn
  | unusedLsa s a =>
    rw [Store.removeLsa] at hn
    rw [hs] at hn
    cases hn

/-- C3 (amended): during a rebuild, the per-LSA expiry guard makes the
application fold equal to the fold over only the non-expired LSAs (still
resolving endpoints against the full store); and a present LSA disappears
from the store only through an explicit REM carrying its own key. -/
theorem lsa_apply_skips_expired_and_rem_only_deletes :
    (∀ (ctx : RebuildCtx) (st : Store),
        lsaApplyPhase ctx st = lsaApplyPhaseFiltered ctx st) ∧
      ∀ (a : LsdbAction) (st : Store) (k : LKey),
        (applyAction a st).findKey k = none →
        ∀ l, st.findKey k = some l →
        ∃ lr, a = .rem lr ∧ lr.key = some k := by
  constructor
  · intro ctx st
    exact foldl_skip_filter isExpiredLsa (fun g l => l.apply ctx st g) _ _
  · intro a st k hn l hs
    cases a with
    | beginT => rw [applyAction, hs] at hn; cases hn
    | commitT => rw [applyAction, hs] at hn; cases hn
    | add la =>
      rw [applyAction] at hn
      split at hn
      · rw [hs] at hn; cases hn
      · obtain ⟨l2, h2⟩ := addLsa_preserves_found st la k l hs
        rw [h2] at hn
        cases hn
    | rem lr =>
      rw [applyAction] at hn
      split at hn
      · rw [hs] at hn; cases hn
      · exact ⟨lr, rfl, removeLsa_deletes_only_own_key st lr k l hs hn⟩

/-- Witness for the REM-only-deletion part of
`lsa_apply_skips_expired_and_rem_only_deletes` at a concrete store. -/
theorem lsa_apply_skips_expired_and_rem_only_deletes_witness :
    (applyAction (.rem (.router 3 5 0 []))
          ⟨[(3, .router 3 5 0 [])], [], []⟩).findKey (.routerK 3) = none ∧
      (⟨[(3, .router 3 5 0 [])], [], []⟩ : Store).findKey (.routerK 3) =
        some (.router 3 5 0 []) ∧
      ∃ lr, (LsdbAction.rem (.router 3 5 0 [])) = .rem lr ∧
        lr.key = some (.routerK 3) := by
  refine ⟨by decide, by decide, ?_⟩
  exact lsa_apply_skips_expired_and_rem_only_deletes.2
    (.rem (.router 3 5 0 [])) ⟨[(3, .router 3 5 0 [])], [], []⟩
    (.routerK 3) (by decide) (.router 3 5 0 []) (by decide)

/-- C9: `commit_change` drops empty lines, but since `last_line` is set to
the empty string in `__init__` and never reassigned, a line equal to the
most recently submitted line is enqueued again instead of being dropped:
submitting the same `ADD` line twice queues it twice. -/
theorem commit_change_duplicate_line_not_dropped :
    (commitChange (commitChange initIngest "ADD|x") "ADD|x").queue =
        ["ADD|x", "ADD|x"] ∧
      (commitChange (commitChange initIngest "ADD|x") "ADD|x").lastLine
        = "" ∧
      ∀ st : IngestState, (commitChange st "").queue = st.queue := by
  refine ⟨rfl, rfl, fun st => ?_⟩
  simp [commitChange]

/-- C1: with a stored sequence number of 0, the truthiness test
`c_seqnum and ...` in `is_old_seqnum` is falsy, so an ADD carrying a
strictly older (signed) sequence number still overwrites the stored LSA,
breaking the claimed discard/monotonicity discipline. -/
theorem add_older_seqnum_overwrites_when_stored_zero :
    isNewerSeqnum (-5) 0 = false ∧
      (applyAction (.add (.router 1 (-5) 10 []))
            (applyAction (.add (.router 1 0 10 [])) emptyStore)).findKey
          (.routerK 1) =
        some (.router 1 (-5) 10 []) := by
  constructor
  · rfl
  · rfl

/-- C5: rebuilding with an empty private-address store (`_bdomains` is a
`defaultdict`, so `targets_for` returns `[]` instead of raising) turns a
controller-originated AS-external route with an unknown forwarding address
into a fake route carrying an empty `target` list — a local-marked edge with
no targets, instead of the intended global fake route. -/
theorem asext_unknown_fwd_creates_empty_target_route :
    (lsaApplyPhase ⟨fun r => decide (r = 7), fun _ => []⟩
          ⟨[], [], [((7, 100), .asext 7 100 1 0 [(5, some 42)])]⟩).getEdge
        42 100 =
      some
        { metric := some 5, srcAddress := none, fakeFlag := some true,
          target := some [] } := by
  rfl

/-- C3 counterexample: an expired Network LSA (age 3600) still resolves the
transit-link endpoints of a live Router LSA, so its presence in the store
changes the rebuilt graph — it does contribute an edge. -/
theorem expired_network_lsa_still_shapes_rebuild :
    isExpiredLsa (.network 9 1 3600 [2]) = true ∧
      (lsaApplyPhase ⟨fun _ => false, fun _ => []⟩
            ⟨[(1, .router 1 1 0 [.transit 9 11 5])],
              [(9, .network 9 1 3600 [2])], []⟩).hasEdge 1 2 = true ∧
      (lsaApplyPhase ⟨fun _ => false, fun _ => []⟩
            (Store.removeLsa
              ⟨[(1, .router 1 1 0 [.transit 9 11 5])],
                [(9, .network 9 1 3600 [2])], []⟩
              (.network 9 1 3600 [2]))).hasEdge 1 2 = false := by
  refine ⟨rfl, rfl, rfl⟩

/-- C7 counterexample: the default metric for synthesized edges is
`int(10e3)` = 10000, not 100000 as the specification claims. -/
theorem merger_new_edge_metric_is_not_100000 :
    mergerNewEdgeMetric = 10000 ∧ mergerNewEdgeMetric ≠ 100000 := by
  decide

/-- C10: `add_edge` sets the dirty flag to exactly the presence of the
reverse edge after insertion, overwriting any earlier dirty state, so a
`commit` arriving right after a unidirectional `add_edge` performs no
notification (no `graph_changed`) whatever happened earlier in the batch. -/
theorem add_edge_unidirectional_overwrites_dirty (st : ListenerState)
    (u v : Nat) (h1 : (v, u) ∉ st.edges) (h2 : u ≠ v) :
    (listenerAddEdge st u v).dirty =
        decide ((v, u) ∈ (listenerAddEdge st u v).edges) ∧
      (listenerAddEdge st u v).dirty = false ∧
      listenerCommit (listenerAddEdge st u v) = listenerAddEdge st u v := by
  have hmem : (v, u) ∉ insert (u, v) st.edges := by
    intro hm
    rcases Finset.mem_insert.1 hm with h | h
    · exact h2 (congrArg Prod.snd h)
    · exact h1 h
  refine ⟨rfl, ?_, ?_⟩
  · simp [listenerAddEdge, hmem]
  · have hd : (listenerAddEdge st u v).dirty = false := by
      simp [listenerAddEdge, hmem]
    simp [listenerCommit, hd]

/-- Witness for `add_edge_unidirectional_overwrites_dirty` at a concrete
dirty state. -/
theorem add_edge_unidirectional_overwrites_dirty_witness :
    ((1, 0) ∉ (⟨∅, true, 3⟩ : ListenerState).edges) ∧
      (listenerCommit (listenerAddEdge ⟨∅, true, 3⟩ 0 1)).notifications
        = 3 := by
  refine ⟨by decide, ?_⟩
  have h :=
    add_edge_unidirectional_overwrites_dirty ⟨∅, true, 3⟩ 0 1
      (by decide) (by decide)
  rw [h.2.2]
  rfl

/-- C4: `apply_merge` is atomic on failure.  Entered on a router `n` whose
global fake node forces the merged next-hop `nh` (the call-site guarantee
from `merge` via `merge_fake_nodes`) and on a state whose ECMP-dependency
relation is symmetric at `n` (else the Python raises a `KeyError` instead
of failing), every failing path — `s` already an ECMP dependency of `n`, an
ECMP dependent leaving its valid range during the dependency loop, or a
failed lower-bound re-propagation (fuel exhaustion is counted as failure)
— replays the recorded undo closures and returns the state bit-for-bit
unchanged. -/
theorem apply_merge_rolls_back_on_failure (ctx : SolverCtx) (gas fuel : Nat)
    (s0 : MState) (n s : Nat) (lb ub : Int) (nh : Nat)
    (h1 : (s0.nodes n).fake = some FakeKind.globalK)
    (h2 : nh ∈ (s0.nodes n).forced)
    (h3 : ∀ e ∈ s0.ecmp n, n ∈ s0.ecmp e) :
    (applyMerge ctx gas fuel s0 n s lb ub nh).2 = true →
    (applyMerge ctx gas fuel s0 n s lb ub nh).1 = s0 := by
  have hml3 : Inv s0 (amSetup s0 n s lb ub nh) :=
    amSetup_inv s0 n s lb ub nh h2
  have hg : ((amSetup s0 n s lb ub nh).st.nodes n).fake =
      some FakeKind.globalK := by
    rw [fake_amSetup]
    exact h1
  have key : ∀ r : MState × Bool,
      applyMerge ctx gas fuel s0 n s lb ub nh = r → r.2 = true →
      r.1 = s0 := by
    intro r hres hf
    simp only [applyMerge] at hres
    split at hres
    · rw [← hres]
      exact inv_rollback hml3
    · have hinv4 := inv_removeStage (amSetup s0 n s lb ub nh) n hml3 hg
      have hnd : (ecmpDepList (amSetup s0 n s lb ub nh).st n).Nodup :=
        Finset.sort_nodup _ _
      have hmem4 :
          (!hasFakeNode ((amSetup s0 n s lb ub nh).st.nodes n)
              (some FakeKind.globalK)) = true →
          ∀ e ∈ ecmpDepList (amSetup s0 n s lb ub nh).st n,
            n ∈
              (if (!hasFakeNode ((amSetup s0 n s lb ub nh).st.nodes n)
                    (some FakeKind.globalK)) = true
                then
                  recMut (fun st => removeFakeNode st n)
                    (fun st =>
                      setFake st n
                        (((amSetup s0 n s lb ub nh).st.nodes n).fake))
                    (amSetup s0 n s lb ub nh)
                else amSetup s0 n s lb ub nh).st.ecmp e := by
        intro _ e he
        have hse : e ∈ s0.ecmp n := by
          have h5 : e ∈ ((amSetup s0 n s lb ub nh).st.ecmp n).sort (· ≤ ·) :=
            he
          exact (Finset.mem_sort _).mp h5
        exact mem_removeStage (amSetup s0 n s lb ub nh) n n e (h3 e hse)
      split at hres
      · rename_i mlF heq
        rw [← hres]
        exact inv_rollback
          (mergeEcmpLoop_inv ctx n s _ _ s0 _ _ _ hnd hinv4 hmem4 heq)
      · rename_i ml5 heq
        have hinv5 : Inv s0 ml5 :=
          mergeEcmpLoop_inv ctx n s _ _ s0 _ _ _ hnd hinv4 hmem4 heq
        split at hres
        · rename_i mlF heq2
          rw [← hres]
          exact inv_rollback
            (propagateLbMerge_inv ctx gas fuel _ ml5 s0 _ hinv5 heq2)
        · rename_i ml6 heq2
          rw [← hres] at hf
          simp at hf
  intro hf
  exact key _ rfl hf

/-- Witness for `apply_merge_rolls_back_on_failure`: merging router 0's
global fake node over 1 fails immediately (1 is already an ECMP dependency
of 0) and the returned state is exactly the input state. -/
theorem apply_merge_rolls_back_on_failure_witness :
    (applyMerge wCtx 5 5 wState 0 1 3 8 1).2 = true ∧
      (applyMerge wCtx 5 5 wState 0 1 3 8 1).1 = wState := by
  have hlist : ecmpDepList (amSetup wState 0 1 3 8 1).st 0 = [1] := by
    show Finset.sort (· ≤ ·) ((amSetup wState 0 1 3 8 1).st.ecmp 0) = [1]
    have h0 : (amSetup wState 0 1 3 8 1).st.ecmp 0 = {1} := rfl
    rw [h0]
    exact Finset.sort_singleton _ 1
  have hflag : (applyMerge wCtx 5 5 wState 0 1 3 8 1).2 = true := by
    simp only [applyMerge]
    rw [hlist]
    rw [if_pos (List.mem_singleton.mpr rfl)]
  exact ⟨hflag,
    apply_merge_rolls_back_on_failure wCtx 5 5 wState 0 1 3 8 1 rfl
      (by decide) (by decide) hflag⟩

end Fibbing
